import Mathlib

/-!
Verification development for the legal-question answering engine
(retrieval cascade, quote matcher / span locator, RRF fusion, law
shortlister, reference detector, versioned ingestion with alias GC).

Strings are modelled as `List Char` (`Str`).  Python regular expressions
that the source applies to its inputs are hand-compiled into explicit
scanning functions.  External collaborators (vector store, embedding
model, cross-encoder, LLM) are oracle fields of environment structures,
per the spec's interface section; everything in the repository itself is
translated directly from the source.
-/

set_option maxRecDepth 4000

abbrev Str := List Char

/-- Python `str.isspace` / regex `\s` for the characters this corpus uses
(ASCII whitespace). -/
def pySpace (c : Char) : Bool :=
  c == ' ' || c == '\t' || c == '\n' || c == '\r' || c == '\x0b' || c == '\x0c'

/-- `normalize_quotes` from `app/verify/quote_matcher.py`, as a character
map: each replacement there substitutes one character for one character. -/
def normQuoteChar (c : Char) : Char :=
  if c = '“' then '"'
  else if c = '”' then '"'
  else if c = '’' then '\''
  else if c = '‘' then '\''
  else c

/-- `re.sub(r'\s+', ' ', s)`: collapse each maximal whitespace run to a
single space.  The boolean is the "previous char was whitespace" flag. -/
def collapseF : Bool → Str → Str
  | _, [] => []
  | prev, c :: r =>
    if pySpace c then
      if prev then collapseF true r else ' ' :: collapseF true r
    else c :: collapseF false r

/-- Python `str.strip()` for whitespace. -/
def stripW (l : Str) : Str :=
  ((l.dropWhile pySpace).reverse.dropWhile pySpace).reverse

/-- `canonical` from `quote_matcher.py`:
`normalize_spaces(normalize_quotes(s))`. -/
def canonical (s : Str) : Str :=
  stripW (collapseF false (s.map normQuoteChar))

/-- The character-accumulation loop of `_canonical_with_map`
(`quote_matcher.py` lines 32-62): produces the canonical characters
paired with the original index each was taken from.  A whitespace run
yields one `' '` carrying the index of the run's first character. -/
def cwmF : Bool → Nat → Str → List (Char × Nat)
  | _, _, [] => []
  | prev, i, c :: r =>
    if pySpace c then
      if prev then cwmF true (i + 1) r
      else (' ', i) :: cwmF true (i + 1) r
    else (c, i) :: cwmF false (i + 1) r

/-- `_canonical_with_map`: returns `(canon, map_idx)`.  The source strips
`canon` after building the map but leaves `map_idx` unchanged. -/
def canonical_with_map (s : Str) : Str × List Nat :=
  let P := cwmF false 0 (s.map normQuoteChar)
  (stripW (P.map Prod.fst), P.map Prod.snd)

/-- Does `pat` occur in `hay` starting at position `i`? -/
def matchesAt (hay pat : Str) (i : Nat) : Bool :=
  (hay.drop i).take pat.length == pat

/-- Python `str.find`: index of the leftmost occurrence, `none` if absent. -/
def findSub (hay pat : Str) : Option Nat :=
  (List.range (hay.length + 1)).find? (fun i => matchesAt hay pat i)

/-- Python slice `l[a:b]` (for `0 ≤ a ≤ b`). -/
def pySlice (l : Str) (a b : Nat) : Str :=
  (l.drop a).take (b - a)

/-- `find_span_exact` from `quote_matcher.py`: locate the canonical quote
inside the canonical context and map the match back to original offsets
through `map_idx`.  The source's `try/except IndexError` around the two
list accesses is the `Option` match on the lookups. -/
def find_span_exact (context quote : Str) : Option (Nat × Nat) :=
  if context = [] ∨ quote = [] then none
  else
    let cm := canonical_with_map context
    let qm := canonical_with_map quote
    if cm.1 = [] ∨ qm.1 = [] then none
    else
      match findSub cm.1 qm.1 with
      | none => none
      | some pos =>
        match cm.2[pos]?, cm.2[pos + qm.1.length - 1]? with
        | some a, some b => some (a, b + 1)
        | _, _ => none

/-- `quote_exists_exact` from `quote_matcher.py`. -/
def quote_exists_exact (context quote : Str) : Bool :=
  if context = [] ∨ quote = [] then false
  else (findSub (canonical context) (canonical quote)).isSome

/-! ### Word tokenisation (regex `\w`, `str.lower`) -/

/-- Python `str.lower` for the character set this corpus uses
(ASCII letters plus the accented Spanish letters). -/
def pyLower (c : Char) : Char :=
  if 'A' ≤ c ∧ c ≤ 'Z' then Char.ofNat (c.toNat + 32)
  else if c = 'Á' then 'á'
  else if c = 'É' then 'é'
  else if c = 'Í' then 'í'
  else if c = 'Ó' then 'ó'
  else if c = 'Ú' then 'ú'
  else if c = 'Ñ' then 'ñ'
  else if c = 'Ü' then 'ü'
  else c

/-- Regex `\w` over the characters this corpus uses: ASCII alphanumerics,
underscore, and the Spanish accented letters. -/
def wordChar (c : Char) : Bool :=
  c.isAlphanum || c == '_' ||
  c == 'á' || c == 'é' || c == 'í' || c == 'ó' || c == 'ú' || c == 'ñ' || c == 'ü' ||
  c == 'Á' || c == 'É' || c == 'Í' || c == 'Ó' || c == 'Ú' || c == 'Ñ' || c == 'Ü'

/-- Maximal runs of characters satisfying `p`, in order
(`re.findall` of `p+`). -/
def runsOf (p : Char → Bool) : Str → List Str
  | [] => []
  | c :: r =>
    if p c then
      match runsOf p r, r with
      | rs, [] => [c] :: rs
      | rs, d :: _ =>
        if p d then
          match rs with
          | [] => [[c]]
          | run :: rest => (c :: run) :: rest
        else [c] :: rs
    else runsOf p r

/-- `re.findall(r'\w{n,}', s)`: maximal `\w`-runs of length at least `n`
(greedy repetition makes each maximal run a single match). -/
def wordsMin (n : Nat) (s : Str) : List Str :=
  (runsOf wordChar s).filter (fun w => n ≤ w.length)

/-- Remove duplicates keeping first occurrences (Python `set`, modelled as
its list of distinct elements in insertion order). -/
def dedupL : List Str → List Str
  | [] => []
  | x :: r => x :: (dedupL r).filter (fun y => y ≠ x)

/-- Size of a set intersection: `len(a & b)` for deduplicated lists. -/
def interCount (a b : List Str) : Nat :=
  ((dedupL a).filter (fun x => x ∈ dedupL b)).length

/-- Key set `set(w.lower() for w in re.findall(r'\w{4,}', s))`. -/
def wordSet4 (s : Str) : List Str :=
  dedupL ((wordsMin 4 s).map (fun w => w.map pyLower))

/-! ### Sentence splitting and `find_best_quote` -/

/-- `re.split(r'(?<=[\.\;\:])\s+', ctx)` on an already canonical string
(whose whitespace is single `' '` characters): cut after `.`/`;`/`:` when
followed by whitespace.  `acc` is the current sentence being accumulated,
in reverse. -/
def splitSent (acc : Str) : Str → List Str
  | [] => [acc.reverse]
  | [c] => [(c :: acc).reverse]
  | c :: d :: r =>
    if (c == '.' || c == ';' || c == ':') && d == ' ' then
      ((c :: acc).reverse) :: splitSent [] r
    else splitSent (c :: acc) (d :: r)

/-- Python `max(sentences, key=len)`: first element of maximal length. -/
def maxByLen (x : Str) : List Str → Str
  | [] => x
  | y :: r => if x.length < y.length then maxByLen y r else maxByLen x r

/-- The scoring loop of `find_best_quote`: keep the sentence of length
`≥ min_len` with the strictly largest Jaccard-against-query score. -/
def bestLoop (key : List Str) (minLen : Nat) :
    Option Str → ℚ → List Str → Option Str
  | best, _, [] => best
  | best, bestScore, s :: rest =>
    if s.length < minLen then bestLoop key minLen best bestScore rest
    else
      let sw := wordSet4 s
      if sw = [] then bestLoop key minLen best bestScore rest
      else
        let j : ℚ := (interCount key sw : ℚ) / (max key.length 1 : ℚ)
        if bestScore < j then bestLoop key minLen (some s) j rest
        else bestLoop key minLen best bestScore rest

/-- `find_best_quote` from `quote_matcher.py`. -/
def find_best_quote (context query : Str) (minLen : Nat) : Option Str :=
  let ctx := canonical context
  if ctx = [] then none
  else
    let sentences := splitSent [] ctx
    let key := wordSet4 query
    match bestLoop key minLen none 0 sentences with
    | some b => some b
    | none =>
      match sentences with
      | [] => none
      | s :: rest => some (maxByLen s rest)

/-- `option_overlap_support` from `quote_matcher.py`. -/
def option_overlap_support (quote optionText : Str) (minRatio : ℚ) : Bool :=
  if quote = [] ∨ optionText = [] then false
  else
    let q := wordSet4 quote
    let o := wordSet4 optionText
    if o = [] then true
    else decide (minRatio ≤ (interCount q o : ℚ) / (o.length : ℚ))

/-! ### Stable sorting (Python `sorted`, which is stable; with
`reverse=True` equal elements also keep their original order) -/

/-- Insert an element into the descending-by-score sorted list of the
elements that followed it: it goes before the first entry of equal or
smaller score, so original order is kept on ties (stability). -/
def insertDesc {α : Type} (x : α × ℚ) : List (α × ℚ) → List (α × ℚ)
  | [] => [x]
  | y :: l => if x.2 < y.2 then y :: insertDesc x l else x :: y :: l

/-- Stable sort, descending by score: Python
`sorted(pairs, key=value, reverse=True)`. -/
def sortDesc {α : Type} : List (α × ℚ) → List (α × ℚ)
  | [] => []
  | x :: l => insertDesc x (sortDesc l)

/-! ### Reciprocal-rank fusion (`app/retrieve/lexical.py`, `rrf_fuse`) -/

/-- `defaultdict(float)` update preserving Python dict insertion order:
an existing key keeps its position, a new key is appended. -/
def aggAdd (l : List (Nat × ℚ)) (i : Nat) (v : ℚ) : List (Nat × ℚ) :=
  if l.any (fun kv => kv.1 = i) then
    l.map (fun kv => if kv.1 = i then (kv.1, kv.2 + v) else kv)
  else l ++ [(i, v)]

/-- One ranking's contribution: `for rank, idx in enumerate(r, start=1):
agg[idx] += 1.0 / (k + rank)`. -/
def aggRanking (k : ℚ) (agg : List (Nat × ℚ)) (r : List Nat) : List (Nat × ℚ) :=
  (List.enumFrom 1 r).foldl (fun a p => aggAdd a p.2 (1 / (k + (p.1 : ℚ)))) agg

/-- `rrf_fuse(rankings, k=60, top_k=20)` from `app/retrieve/lexical.py`:
sum reciprocal ranks per candidate index, sort descending (stable, so
ties keep dict insertion order), return indices capped at `top_k`. -/
def rrf_fuse (rankings : List (List Nat)) (k : ℚ) (topK : Nat) : List Nat :=
  let agg := rankings.foldl (aggRanking k) []
  ((sortDesc agg).map Prod.fst).take topK

/-- The fused score of one candidate, written directly as the sum the
source accumulates: `Σ_rankings 1/(k + rank(idx))` over the rankings that
contain `idx` (rank = 1-based position). -/
def rrfScore (rankings : List (List Nat)) (k : ℚ) (idx : Nat) : ℚ :=
  (rankings.map (fun r =>
    ((List.enumFrom 1 r).filterMap (fun p =>
      if p.2 = idx then some (1 / (k + (p.1 : ℚ))) else none)).sum)).sum

/-! ### Law shortlister (`app/retrieve/law_classifier.py`) -/

/-- The `_stop` set of `law_classifier.py`. -/
def lawStop : List Str :=
  ["de", "del", "la", "el", "los", "las", "y", "en", "para", "por", "con",
   "una", "uno", "un", "le", "lo", "al", "a", "o", "u", "que", "se", "su",
   "sus"].map String.data

/-- The token-character class `[a-záéíóúñ]` of `_law_tokenize`. -/
def lawTokChar (c : Char) : Bool :=
  ('a' ≤ c && c ≤ 'z') || c == 'á' || c == 'é' || c == 'í' || c == 'ó' ||
  c == 'ú' || c == 'ñ'

/-- `_law_tokenize` from `law_classifier.py`: maximal `[a-záéíóúñ]{3,}`
runs of the lowercased name, minus the stop list, as a set (deduplicated,
insertion order). -/
def law_tokenize (name : Str) : List Str :=
  dedupL (((runsOf lawTokChar (name.map pyLower)).filter
    (fun t => 3 ≤ t.length)).filter (fun t => t ∉ lawStop))

/-- Dot product (cosine over pre-normalised embeddings), with Python
`zip` truncation. -/
def dotQ (a b : List ℚ) : ℚ :=
  ((a.zip b).map (fun p => p.1 * p.2)).sum

/-- Environment for the shortlister: the alias table (insertion order)
and the external embedding collaborator. -/
structure ClassEnv where
  aliasTab : List (Str × Str)
  emb : Str → List ℚ

/-- The blended score `0.75*cos + 0.25*lex` computed in the loop of
`shortlist_laws`; `lex = len(qtoks & law_tokens) / (len(qtoks) or 1)`. -/
def lawScore (E : ClassEnv) (query name : Str) : ℚ :=
  let cos := dotQ (E.emb query) (E.emb name)
  let lex : ℚ := (interCount (law_tokenize query) (law_tokenize name) : ℚ) /
    (max (law_tokenize query).length 1 : ℚ)
  3 / 4 * cos + 1 / 4 * lex

/-- `shortlist_laws(query, top_n)` from `law_classifier.py`: score every
law, stable-sort descending, keep the first `top_n`.  The per-process
cache holds exactly the alias names' embeddings and token sets, so it is
semantically the direct computation. -/
def shortlist_laws (E : ClassEnv) (query : Str) (topN : Nat) : List (Str × ℚ) :=
  let results := E.aliasTab.map (fun ln => (ln.1, lawScore E query ln.2))
  (sortDesc results).take topN

/-- Modelled from the spec: the score §4.2 claims, with true Jaccard
similarity `|q ∩ l| / |q ∪ l|` of the token sets (refinement comparison
target; not what the source computes). -/
def lawScoreJaccardSpec (E : ClassEnv) (query name : Str) : ℚ :=
  let q := law_tokenize query
  let l := law_tokenize name
  let uni := dedupL (q ++ l)
  let jac : ℚ := if uni.length = 0 then 0 else (interCount q l : ℚ) / (uni.length : ℚ)
  3 / 4 * dotQ (E.emb query) (E.emb name) + 1 / 4 * jac

/-! ### Versioned collection store and garbage collection
(`app/vector/qdrant_store.py`, `backup/2/app/ingest/pipeline.py`) -/

/-- Python string `<` (lexicographic by code point). -/
def lexLt : Str → Str → Bool
  | _, [] => false
  | [], _ :: _ => true
  | a :: as_, b :: bs => if a < b then true else if b < a then false else lexLt as_ bs

def insertAsc (x : Str) : List Str → List Str
  | [] => [x]
  | y :: l => if lexLt y x then y :: insertAsc x l else x :: y :: l

/-- Python `sorted` on strings (ascending lexicographic). -/
def sortAsc : List Str → List Str
  | [] => []
  | x :: l => insertAsc x (sortAsc l)

/-- `s.startswith(p)`. -/
def startsWithS (s p : Str) : Bool :=
  s.take p.length == p

/-- The vector store's collection/alias state. `aliases` maps an alias
name to the physical collection it currently references. -/
structure StoreSt where
  collections : List Str
  aliases : List (Str × Str)
deriving DecidableEq

/-- `delete_old_versions(keep_alias, base_name, keep)` from
`qdrant_store.py`: sort every collection named `base_name + "__"…`
lexicographically and delete all but the last `keep` of them.  The
`keep_alias` parameter is accepted and never used, exactly as in the
source; no alias is consulted.  (Python `cols[:-keep]` is empty when
`keep == 0`.) -/
def delete_old_versions (st : StoreSt) (keepAlias baseName : Str) (keep : Nat) : StoreSt :=
  let _ := keepAlias
  let cols := sortAsc (st.collections.filter
    (fun c => startsWithS c (baseName ++ ('_' :: ['_']))))
  let extra := if keep = 0 then [] else cols.take (cols.length - keep)
  { st with collections := st.collections.filter (fun c => c ∉ extra) }

/-- First component of `c.split("__")`: everything before the first
occurrence of `"__"` (the whole string if absent). -/
def splitBase : Str → Str
  | [] => []
  | [c] => [c]
  | c :: d :: r => if c = '_' ∧ d = '_' then [] else c :: splitBase (d :: r)

/-- `"__" in c`. -/
def hasDunder (c : Str) : Bool :=
  (findSub c ('_' :: ['_'])).isSome

/-- `gc_versions(keep)` from `backup/2/app/ingest/pipeline.py`: collect
the distinct first components before `"__"` of all collection names and
run `delete_old_versions` for each (the prefixes operate on disjoint
name sets, so the Python set's iteration order is immaterial; we use
first-encounter order). -/
def gc_versions (st : StoreSt) (keep : Nat) : StoreSt :=
  let prefixes := dedupL ((st.collections.filter hasDunder).map splitBase)
  prefixes.foldl (fun s pref => delete_old_versions s pref pref keep) st

/-! ### Ingestion manifest handling
(`backup/2/app/ingest/pipeline.py`, `ingest_all` / `_ingest_ley`) -/

/-- A file-hash snapshot (`snapshot_dir`): relative path → content hash.
Keys are distinct. -/
abbrev Snapshot := List (Str × Str)

/-- Python `dict` equality for snapshots (key-value equality, order
independent). -/
def dictEq (a b : Snapshot) : Bool :=
  a.all (fun kv => (b.lookup kv.1) = some kv.2) &&
  b.all (fun kv => (a.lookup kv.1) = some kv.2)

/-- The persisted manifest: `{"articulos": {ley_id: snapshot},
"pdf_temas": snapshot}`. -/
structure Manifest where
  articulos : List (Str × Snapshot)
  pdf_temas : Snapshot
deriving DecidableEq

/-- Environment for one ingestion run: the alias table, the current
file-system snapshots, and the article loader (whose embed/upsert/alias
consumers are the external vector-store collaborators). -/
structure IngestEnv where
  aliasTab : List (Str × Str)
  isdirLey : Str → Bool
  snapshotLey : Str → Snapshot
  pdfDirExists : Bool
  snapshotPdf : Snapshot
  leyDocsCount : Str → Nat

/-- `_ingest_ley`: returns `False` when `load_articles` yields no
documents (the law's ingestion failed and is skipped); otherwise embeds,
upserts into a fresh versioned collection, swaps the alias (external
store operations) and returns `True`. -/
def ingest_ley (E : IngestEnv) (leyId : Str) : Bool :=
  if E.leyDocsCount leyId = 0 then false else true

/-- The `snap_art` dictionary of `ingest_all`: one entry per alias law
whose directory exists, in alias order. -/
def snapArt (E : IngestEnv) : List (Str × Snapshot) :=
  (E.aliasTab.filter (fun ln => E.isdirLey ln.1)).map
    (fun ln => (ln.1, E.snapshotLey ln.1))

/-- The `changed_leyes` computation of `ingest_all`: laws whose current
snapshot differs from the manifest entry (or everything under `force`). -/
def changedLeyes (E : IngestEnv) (manifest : Manifest) (force : Bool) : List Str :=
  ((snapArt E).filter (fun m =>
    force || !dictEq ((manifest.articulos.lookup m.1).getD []) m.2)).map Prod.fst

/-- `ingest_all` (manifest behaviour, `scope=None`): detect changed laws,
run `_ingest_ley` for each — its boolean result is discarded, exactly as
in the source — and save a manifest rebuilt from the *current* snapshots
of every snapshotted law.  Returns the saved manifest together with the
per-law `_ingest_ley` results of the changed laws. -/
def ingest_all (E : IngestEnv) (manifest : Manifest) (force : Bool) :
    Manifest × List (Str × Bool) :=
  let changed := changedLeyes E manifest force
  let results := (changed.filter E.isdirLey).map (fun lid => (lid, ingest_ley E lid))
  let manifestOut : Manifest :=
    { articulos := snapArt E
      pdf_temas := if E.pdfDirExists then E.snapshotPdf else [] }
  (manifestOut, results)

/-! ### Reference detector (`app/pipeline/solver.py`, `_detect_reference`)
The three regexes are hand-compiled into leftmost scanners. -/

/-- Word boundary `\b` between positions `i-1` and `i` of `t`. -/
def boundaryAt (t : Str) (i : Nat) : Bool :=
  let byIdx : Nat → Bool := fun j =>
    match t[j]? with
    | some c => wordChar c
    | none => false
  (byIdx i) != (if i = 0 then false else byIdx (i - 1))

/-- Does the literal `lit` occur at position `i`? -/
def litAt (t lit : Str) (i : Nat) : Bool :=
  matchesAt t lit i

/-- Length of the maximal run of `p`-characters starting at `i`. -/
def runLenAt (p : Char → Bool) (t : Str) (i : Nat) : Nat :=
  ((t.drop i).takeWhile p).length

def isDigitB (c : Char) : Bool := c.isDigit

/-- Latin ordinal suffixes of the article regex, in alternation order. -/
def latinSuffixes : List Str :=
  ["bis", "ter", "quater", "quinquies", "sexies", "septies", "octies",
   "nonies", "decies"].map String.data

/-- Parse Python `int` of a digit run. -/
def natOfDigits (ds : Str) : Nat :=
  ds.foldl (fun n c => n * 10 + (c.toNat - '0'.toNat)) 0

/-- Try the article regex
`\bart(?:[íi]culo|\.)\s+(\d+)\s*(bis|ter|…)?\b` at start position `i` of
the lowercased text; returns `(number, suffix)` on success.  Greedy
`\d+` cannot usefully backtrack (digit–digit positions are never word
boundaries), so the compiled form is: maximal digits, maximal
whitespace, then the first suffix alternative with a boundary after it,
else the empty suffix, which needs a boundary right after `\s*` —
satisfied after whitespace only if a word character follows, and after
the digits only if no word character follows. -/
def artAt (t : Str) (i : Nat) : Option (Nat × Option Str) :=
  if ¬ boundaryAt t i then none
  else if ¬ litAt t ("art".data) i then none
  else
    let afterKw : Option Nat :=
      if litAt t ("ículo".data) (i + 3) then some (i + 3 + 5)
      else if litAt t ("iculo".data) (i + 3) then some (i + 3 + 5)
      else if litAt t (".".data) (i + 3) then some (i + 3 + 1)
      else none
    match afterKw with
    | none => none
    | some j =>
      let ws := runLenAt pySpace t j
      if ws = 0 then none
      else
        let d := j + ws
        let nd := runLenAt isDigitB t d
        if nd = 0 then none
        else
          let num := natOfDigits (pySlice t d (d + nd))
          let e := d + nd
          let ws2 := runLenAt pySpace t e
          let s := e + ws2
          match latinSuffixes.find? (fun suf =>
            litAt t suf s && boundaryAt t (s + suf.length)) with
          | some suf => some (num, some suf)
          | none =>
            -- Empty suffix: `\b` must hold after `\s*` for some amount of
            -- consumed whitespace.  The char before `e` is a digit (word),
            -- so if any whitespace follows the digits the boundary at `e`
            -- already holds; with none, it holds iff no word char follows.
            -- Both cases are exactly `boundaryAt t e`.
            if boundaryAt t e then some (num, none) else none

/-- Leftmost search of the article regex over the lowercased text. -/
def artMatch (t : Str) : Option (Nat × Option Str) :=
  ((List.range (t.length + 1)).findSome? (fun i => artAt t i))

/-- The `_ORD_WORDS` keys in dict insertion order. -/
def ordWords : List Str :=
  ["unica", "única", "primera", "segunda", "tercera", "cuarta", "quinta",
   "sexta", "séptima", "septima", "octava", "novena", "décima",
   "decima"].map String.data

/-- The disposition types, in the source's loop order. -/
def dispTipos : List Str :=
  ["adicional", "transitoria", "final", "derogatoria"].map String.data

/-- Try `disposici[oó]n\s+<tipo>\s+((<ordwords>)|\d+)\b` at position `i`. -/
def dispAt (tipo : Str) (t : Str) (i : Nat) : Bool :=
  let afterKw : Option Nat :=
    if litAt t ("disposicion".data) i then some (i + 11)
    else if litAt t ("disposición".data) i then some (i + 11)
    else none
  match afterKw with
  | none => false
  | some j =>
    let ws := runLenAt pySpace t j
    if ws = 0 then false
    else
      let k := j + ws
      if ¬ litAt t tipo k then false
      else
        let j2 := k + tipo.length
        let ws2 := runLenAt pySpace t j2
        if ws2 = 0 then false
        else
          let m := j2 + ws2
          (ordWords.any (fun w => litAt t w m && boundaryAt t (m + w.length)))
          ||
          (let nd := runLenAt isDigitB t m
           nd ≠ 0 && boundaryAt t (m + nd))

/-- The disposition loop of `_detect_reference`: first tipo (in loop
order) whose regex matches anywhere in the text. -/
def dispMatch (t : Str) : Option Str :=
  dispTipos.find? (fun tipo =>
    (List.range (t.length + 1)).any (fun i => dispAt tipo t i))

def romanChar (c : Char) : Bool :=
  c == 'i' || c == 'v' || c == 'x' || c == 'l' || c == 'c' || c == 'd' || c == 'm'

def azChar (c : Char) : Bool := 'a' ≤ c && c ≤ 'z'

/-- Try `anexo\s+(([ivxlcdm]+)|\d+)(?:-?([a-z]))?\b` at position `i`;
returns the optional trailing-letter suffix on success. -/
def anexoAt (t : Str) (i : Nat) : Option (Option Str) :=
  if ¬ litAt t ("anexo".data) i then none
  else
    let j := i + 5
    let ws := runLenAt pySpace t j
    if ws = 0 then none
    else
      let k := j + ws
      let nr := runLenAt romanChar t k
      let nb := if nr ≠ 0 then nr else runLenAt isDigitB t k
      if nb = 0 then none
      else
        let e := k + nb
        match t[e]? with
        | some c =>
          if c = '-' then
            match t[e + 1]? with
            | some d =>
              if azChar d && boundaryAt t (e + 2) then some (some [d])
              else some none  -- empty optional group; `-` is a boundary
            | none => some none
          else if azChar c then
            if boundaryAt t (e + 1) then some (some [c]) else none
          else if boundaryAt t e then some none
          else none
        | none => some none  -- end of text is a boundary after the run
/-- Leftmost search of the annex regex. -/
def anexoMatch (t : Str) : Option (Option Str) :=
  ((List.range (t.length + 1)).findSome? (fun i => anexoAt t i))

/-- `lid.lower() in t` / `name.lower() in t`. -/
def inText (needle t : Str) : Bool :=
  (findSub t (needle.map pyLower)).isSome

/-- The law-id resolution of `_detect_reference`: first alias key whose
lowercase form occurs in the text, else first alias entry whose
non-empty name occurs. -/
def findLey (aliasTab : List (Str × Str)) (t : Str) : Option Str :=
  match aliasTab.find? (fun ln => inText ln.1 t) with
  | some ln => some ln.1
  | none =>
    match aliasTab.find? (fun ln => ln.2 ≠ [] && inText ln.2 t) with
    | some ln => some ln.1
    | none => none

/-- The detector's result dictionary.  For blank input the source
returns `{}`: every field absent (`none`). -/
structure Ref where
  pieza_tipo : Option Str
  num : Option Nat
  sufijo : Option Str
  ley_id : Option Str
deriving DecidableEq

/-- `_detect_reference` from `app/pipeline/solver.py`.  The source's two
final `return` statements build the same dictionary, so they are merged.
On no pattern match the piece kind keeps its initial value
`"articulo"`. -/
def detect_reference (aliasTab : List (Str × Str)) (texto : Str) : Ref :=
  if stripW texto = [] then ⟨none, none, none, none⟩
  else
    let t := texto.map pyLower
    let ley := findLey aliasTab t
    match artMatch t with
    | some (n, suf) => ⟨some ("articulo".data), some n, suf, ley⟩
    | none =>
      match dispMatch t with
      | some tipo => ⟨some (("disposicion_".data) ++ tipo), none, none, ley⟩
      | none =>
        match anexoMatch t with
        | some suf => ⟨some ("anexo".data), none, suf, ley⟩
        | none => ⟨some ("articulo".data), none, none, ley⟩

/-! ### Solver cascade (`app/pipeline/solver.py`) -/

/-- A stored point's payload (`dict.get` semantics as `Option` fields;
`text_chunk` defaults to the empty string). -/
structure Payload where
  ley_id : Option Str := none
  ley_nombre : Option Str := none
  source_kind : Option Str := none
  ruta_origen : Option Str := none
  text_chunk : Str := []
  pieza_tipo : Option Str := none
  num : Option Nat := none
  sufijo : Option Str := none
  ordinal : Option Str := none
deriving DecidableEq

def emptyPayload : Payload := {}

/-- One retrieval hit. -/
structure Hit where
  score : ℚ
  payload : Payload
deriving DecidableEq

structure Fuente where
  tipo : Str
  payload : Payload
deriving DecidableEq

/-- The solver's `info` dictionary. -/
structure Info where
  confianza : ℚ
  fuente : Fuente
  tiene_cita : Bool
  span : Option (Nat × Nat)
  ley_id : Option Str
  ley_nombre : Option Str
deriving DecidableEq

/-- The solver module's configuration constants, read from the process
environment once at import time. -/
structure SolverCfg where
  strict : Bool
  strictLawGuard : Bool
  adaptive : Bool
  minlenShort : Nat
  minlenLong : Nat
  shortArticleThreshold : Nat
deriving DecidableEq

/-- External collaborators of the cascade (vector store searches,
embedding model, cross-encoder scores, text files, generative LLM), per
the spec's interface section.  A failed/raising search is its `[]`
result (the source catches those exceptions and substitutes `[]`). -/
structure SolveEnv where
  aliasTab : List (Str × Str)
  emb : Str → List ℚ
  searchTxtByRef : Str → Str → Option Nat → Option Str → List Hit
  searchTxtInLaws : Str → List Str → Nat → List Hit
  searchPdfLey : Str → Str → Nat → List Hit
  searchPdfTemas : Str → Nat → List Hit
  rerankScores : Str → List Str → List ℚ
  readText : Str → Option Str
  generate : Str → Str → Option Str

/-- Python `a or b` over optional strings (`None` and `""` are falsy). -/
def pyOrS : Option Str → Option Str → Option Str
  | some s, b => if s = [] then b else some s
  | none, b => b

/-- Truthiness of an optional string. -/
def truthyS : Option Str → Bool
  | some s => s ≠ []
  | none => false

/-- `alias.get(k)` for an optional key. -/
def aliasGet (aliasTab : List (Str × Str)) : Option Str → Option Str
  | some k => aliasTab.lookup k
  | none => none

/-- `s.lower().endswith(suf)`. -/
def endsWithLower (s suf : Str) : Bool :=
  ((s.map pyLower).reverse.take suf.length) == suf.reverse

/-- `_read_payload_text`: a `.txt` path that exists is read from disk;
a pdf payload supplies its chunk; otherwise the empty string. -/
def read_payload_text (E : SolveEnv) (p : Payload) : Str :=
  match p.ruta_origen with
  | some path =>
    if path ≠ [] ∧ (E.readText path).isSome ∧ endsWithLower path (".txt".data) then
      (E.readText path).getD []
    else if p.source_kind = some ("pdf".data) then p.text_chunk
    else []
  | none =>
    if p.source_kind = some ("pdf".data) then p.text_chunk
    else []

def natStr (n : Nat) : Str := (Nat.repr n).data

/-- f-string rendering of a possibly-absent string (`None` prints as
`"None"`). -/
def pyStr : Option Str → Str
  | some s => s
  | none => "None".data

/-- `_format_ref` from `solver.py`. -/
def format_ref (p : Payload) (leyNombre : Option Str) : Str :=
  if p.pieza_tipo = some ("articulo".data) ∧ p.num ≠ none then
    let suf := match p.sufijo with
      | some s => if s = [] then [] else ' ' :: s
      | none => []
    ("(Artículo ".data) ++ natStr (p.num.getD 0) ++ suf ++ (", ".data) ++
      pyStr leyNombre ++ (")".data)
  else if (match p.pieza_tipo with
           | some s => startsWithS s ("disposicion_".data)
           | none => false) then
    let tipo := (p.pieza_tipo.getD []).drop 12
    let ordTxt := match p.ordinal with
      | some o => if o = [] then (match p.num with | some n => natStr n | none => []) else o
      | none => (match p.num with | some n => natStr n | none => [])
    let sep := if ordTxt = [] then [] else [' ']
    ("(Disposición ".data) ++ tipo ++ sep ++ ordTxt ++ (", ".data) ++
      pyStr leyNombre ++ (")".data)
  else if p.pieza_tipo = some ("anexo".data) then
    let suf := match p.sufijo with
      | some s => if s = [] then [] else '-' :: s
      | none => []
    let num := match p.num with | some n => natStr n | none => []
    ("(Anexo ".data) ++ num ++ suf ++ (", ".data) ++ pyStr leyNombre ++ (")".data)
  else if truthyS leyNombre then ("(".data) ++ pyStr leyNombre ++ (")".data)
  else []

/-- `_guard_match` from `solver.py`. -/
def guard_match (cfg : SolverCfg) (expected : Option Str) (payloadLey : Option Str) : Bool :=
  if ¬ cfg.strictLawGuard then true
  else if ¬ truthyS expected then true
  else payloadLey == expected

/-- `_min_quote_len` from `solver.py`. -/
def min_quote_len (cfg : SolverCfg) (text : Str) (mode : Str) : Nat :=
  if ¬ cfg.adaptive then
    if mode ≠ ("incorrecta".data) then cfg.minlenLong else cfg.minlenShort
  else
    let base := if mode ≠ ("incorrecta".data) then cfg.minlenLong else cfg.minlenShort
    if text.length < cfg.shortArticleThreshold then cfg.minlenShort else base

/-- `_first_fallback_idx` from `solver.py`. -/
def first_fallback_idx (cfg : SolverCfg) (order : List (Nat × ℚ))
    (payloads : List Payload) (expected : Option Str) : Nat :=
  if ¬ cfg.strictLawGuard ∨ ¬ truthyS expected then ((order.headD (0, 0)).1)
  else
    match order.find? (fun is =>
      guard_match cfg expected ((payloads.getD is.1 emptyPayload).ley_id)) with
    | some is => is.1
    | none => ((order.headD (0, 0)).1)

/-- `rerank` from `app/retrieve/reranker.py`: one cross-encoder score per
candidate, indices stable-sorted by score descending. -/
def rerankL (E : SolveEnv) (query : Str) (texts : List Str) : List (Nat × ℚ) :=
  if texts = [] then [] else sortDesc (List.enum (E.rerankScores query texts))

/-- `«…»` formatting of a found quote. -/
def fmtQ (q : Str) : Str := '«' :: q ++ ['»']

/-- Result tuple of `_pick_and_quote`:
`(cita_formateada, payload, score, span)`. -/
structure PickRes where
  quote : Str
  payload : Payload
  score : ℚ
  span : Option (Nat × Nat)
deriving DecidableEq

/-- The `mode != "incorrecta"` loop of `_pick_and_quote` (first six
reranked candidates; quote guided by question+option; needs option
overlap, and in strict mode also an exact span). -/
def pickLoopCorrecta (E : SolveEnv) (cfg : SolverCfg) (enunciado optionTxt : Str)
    (texts : List Str) (payloads : List Payload) (expected : Option Str)
    (mode : Str) : List (Nat × ℚ) → Option PickRes
  | [] => none
  | (idx, score) :: rest =>
    let p := payloads.getD idx emptyPayload
    if ¬ guard_match cfg expected p.ley_id then
      pickLoopCorrecta E cfg enunciado optionTxt texts payloads expected mode rest
    else
      let t := texts.getD idx []
      let minlen := min_quote_len cfg t mode
      match find_best_quote t (enunciado ++ ' ' :: optionTxt) minlen with
      | none => pickLoopCorrecta E cfg enunciado optionTxt texts payloads expected mode rest
      | some quote =>
        let span := find_span_exact t quote
        let okOv := option_overlap_support quote optionTxt (8 / 100)
        if span.isSome ∧ okOv then some ⟨fmtQ quote, p, score, span⟩
        else if ¬ cfg.strict ∧ okOv then some ⟨fmtQ quote, p, score, none⟩
        else pickLoopCorrecta E cfg enunciado optionTxt texts payloads expected mode rest

/-- The `mode == "incorrecta"` loop of `_pick_and_quote` (first eight
candidates; quote guided by the question alone; no overlap check). -/
def pickLoopIncorrecta (E : SolveEnv) (cfg : SolverCfg) (enunciado : Str)
    (texts : List Str) (payloads : List Payload) (expected : Option Str)
    (mode : Str) : List (Nat × ℚ) → Option PickRes
  | [] => none
  | (idx, score) :: rest =>
    let p := payloads.getD idx emptyPayload
    if ¬ guard_match cfg expected p.ley_id then
      pickLoopIncorrecta E cfg enunciado texts payloads expected mode rest
    else
      let t := texts.getD idx []
      let minlen := min_quote_len cfg t mode
      match find_best_quote t enunciado minlen with
      | none => pickLoopIncorrecta E cfg enunciado texts payloads expected mode rest
      | some quote =>
        let span := find_span_exact t quote
        if span.isSome then some ⟨fmtQ quote, p, score, span⟩
        else if ¬ cfg.strict then some ⟨fmtQ quote, p, score, none⟩
        else pickLoopIncorrecta E cfg enunciado texts payloads expected mode rest

/-- `_pick_and_quote` from `solver.py`. -/
def pick_and_quote (E : SolveEnv) (cfg : SolverCfg) (enunciado optionTxt : Str)
    (hits : List Hit) (expected : Option Str) (mode : Str) : PickRes :=
  if hits = [] then ⟨[], emptyPayload, 0, none⟩
  else
    let tp := hits.foldr (fun h acc =>
      let t := read_payload_text E h.payload
      if t = [] then acc else (t, h.payload) :: acc) []
    let texts := tp.map Prod.fst
    let payloads := tp.map Prod.snd
    if texts = [] then ⟨[], emptyPayload, 0, none⟩
    else
      let order := rerankL E enunciado texts
      let looped :=
        if mode ≠ ("incorrecta".data) then
          pickLoopCorrecta E cfg enunciado optionTxt texts payloads expected mode
            (order.take 6)
        else
          pickLoopIncorrecta E cfg enunciado texts payloads expected mode
            (order.take 8)
      match looped with
      | some r => r
      | none =>
        let fb := first_fallback_idx cfg order payloads expected
        ⟨[], payloads.getD fb emptyPayload, (order.headD (0, 0)).2, none⟩

/-- The cascade's per-strategy confidence floors, in strategy order
(`max(0.84, s)`, `max(0.82, s)`, `max(0.72, s)`, `max(0.62, s)`,
`max(0.55, s)` in `solve_question`). -/
def strategyFloor : Nat → ℚ
  | 0 => 84 / 100
  | 1 => 82 / 100
  | 2 => 72 / 100
  | 3 => 62 / 100
  | 4 => 55 / 100
  | _ => 0

/-- The confidence a strategy reports: its floor combined with the
reranker score. -/
def stratConf (k : Nat) (s : ℚ) : ℚ := max (strategyFloor k) s

/-- The `pre` prefixed to the justification. -/
def preFor (mode : Str) : Str :=
  if mode = ("correcta".data) then [] else "La opción es INCORRECTA porque ".data

/-- One positive strategy block of `solve_question` (the five blocks are
syntactically parallel; this is their common body).  `none` means the
block falls through to the next strategy; with candidates but no quote
under strict mode it raises `cita_no_encontrada`. -/
def runStrategy (E : SolveEnv) (cfg : SolverCfg) (enunciado opcion mode : Str)
    (hits : List Hit) (expectedPick : Option Str) (k : Nat) (tipo : Str)
    (leyNom : Payload → Option Str) (leyIdOut : Payload → Option Str) :
    Option (Except Str (Str × Info)) :=
  if hits = [] then none
  else
    let r := pick_and_quote E cfg enunciado opcion hits expectedPick mode
    if r.quote ≠ [] then
      let nombre := leyNom r.payload
      let refTxt := format_ref r.payload nombre
      some (.ok (preFor mode ++ r.quote ++ ' ' :: refTxt,
        { confianza := stratConf k r.score
          fuente := ⟨tipo, r.payload⟩
          tiene_cita := true
          span := r.span
          ley_id := leyIdOut r.payload
          ley_nombre := nombre }))
    else if cfg.strict then some (.error ("cita_no_encontrada".data))
    else none

/-- The ungrounded LLM fallback (block 5 of `solve_question`); the
`try/except` around the call and the `if resp:` truthiness check mean any
failure or empty response falls to `sin_evidencia`. -/
def fallbackStep (E : SolveEnv) (cfg : SolverCfg) (enunciado opcion mode : Str) :
    Except Str (Str × Info) :=
  if ¬ cfg.strict then
    let sys := if mode = ("incorrecta".data) then
        "Explica por qué la opción dada es incorrecta citando la norma aplicable, sin inventar.".data
      else "Responde en español, conciso y sin inventar.".data
    let prompt := if mode = ("incorrecta".data) then
        ("Enunciado: ".data) ++ enunciado ++ ("\nOpción (a refutar): ".data) ++ opcion ++
          ("\nNo hay fragmento literal disponible. Explica por qué es incorrecta de forma breve.".data)
      else
        ("Enunciado: ".data) ++ enunciado ++ ("\nOpción correcta (texto): ".data) ++ opcion ++
          ("\nNo hay fragmento literal disponible. Resume por qué encaja según la ley aplicable, sin inventar.".data)
    match E.generate sys prompt with
    | some resp =>
      if resp ≠ [] then
        .ok (resp, { confianza := 2 / 5
                     fuente := ⟨"sin_cita".data, emptyPayload⟩
                     tiene_cita := false
                     span := none
                     ley_id := none
                     ley_nombre := none })
      else .error ("sin_evidencia".data)
    | none => .error ("sin_evidencia".data)
  else .error ("sin_evidencia".data)

/-- The shortlist adjustment before strategy 2: force the expected law to
the front and cap at five. -/
def adjustShortlist (expected : Option Str) (shortlist : List Str) : List Str :=
  if truthyS expected ∧ (expected.getD []) ∉ shortlist then
    ((expected.getD []) :: shortlist.filter (fun x => x ≠ expected.getD [])).take 5
  else shortlist

/-- `solve_question` from `app/pipeline/solver.py`: the five-strategy
cascade plus the ungrounded fallback. -/
def solve_question (E : SolveEnv) (cfg : SolverCfg) (enunciado opcion mode : Str) :
    Except Str (Str × Info) :=
  let aliasT := E.aliasTab
  let refQ := detect_reference aliasT enunciado
  let refOpt := detect_reference aliasT opcion
  let expected := pyOrS refOpt.ley_id refQ.ley_id
  -- 0) explicit reference in the option
  let step0 :=
    if refOpt.num ≠ none ∧ truthyS (pyOrS refOpt.ley_id expected) then
      let leyForRef := (pyOrS refOpt.ley_id expected).getD []
      runStrategy E cfg enunciado opcion mode
        (E.searchTxtByRef leyForRef (refOpt.pieza_tipo.getD ("articulo".data))
          refOpt.num refOpt.sufijo)
        (some leyForRef) 0 ("txt".data)
        (fun p => pyOrS p.ley_nombre (pyOrS (aliasGet aliasT p.ley_id) (some leyForRef)))
        (fun _ => some leyForRef)
    else none
  match step0 with
  | some r => r
  | none =>
  -- 1) explicit reference in the question
  let step1 :=
    if truthyS refQ.ley_id ∧ refQ.num ≠ none then
      runStrategy E cfg enunciado opcion mode
        (E.searchTxtByRef (refQ.ley_id.getD []) (refQ.pieza_tipo.getD ("articulo".data))
          refQ.num refQ.sufijo)
        refQ.ley_id 1 ("txt".data)
        (fun p => pyOrS p.ley_nombre (pyOrS (aliasGet aliasT p.ley_id) refQ.ley_id))
        (fun p => p.ley_id)
    else none
  match step1 with
  | some r => r
  | none =>
  -- 2) semantic shortlist over laws
  let shortlist := adjustShortlist expected
    ((shortlist_laws ⟨aliasT, E.emb⟩ enunciado 5).map Prod.fst)
  let hits := E.searchTxtInLaws enunciado shortlist 8
  match runStrategy E cfg enunciado opcion mode (hits.take 12) expected 2 ("txt".data)
      (fun p => pyOrS p.ley_nombre (pyOrS (aliasGet aliasT p.ley_id) p.ley_id))
      (fun p => p.ley_id) with
  | some r => r
  | none =>
  -- 3) the law's own PDF collection, when a law is hinted
  let hint := pyOrS expected (match hits with
    | [] => none
    | h :: _ => h.payload.ley_id)
  let step3 :=
    if truthyS hint then
      runStrategy E cfg enunciado opcion mode
        ((E.searchPdfLey (hint.getD []) enunciado 8).take 8) expected 3 ("pdf_ley".data)
        (fun _ => pyOrS (aliasGet aliasT hint) hint)
        (fun _ => hint)
    else none
  match step3 with
  | some r => r
  | none =>
  -- 4) general PDF topic collection
  match runStrategy E cfg enunciado opcion mode
      ((E.searchPdfTemas enunciado 8).take 8) expected 4 ("pdf_temas".data)
      (fun p => pyOrS p.ley_nombre (pyOrS (aliasGet aliasT p.ley_id) p.ley_id))
      (fun p => p.ley_id) with
  | some r => r
  | none =>
  -- 5) ungrounded fallback / no evidence
  fallbackStep E cfg enunciado opcion mode

/-! ### Permissive retry of the batch runner
(`app/cli/run_batch.py`, `_solve_with_fallback`) -/

/-- `os.getenv(key, default).lower() == "true"`. -/
def envBoolD (g : Str → Option Str) (key dflt : Str) : Bool :=
  ((g key).getD dflt).map pyLower == ("true".data)

/-- `int(os.getenv(key, default))` (digits). -/
def envNatD (g : Str → Option Str) (key : Str) (dflt : Nat) : Nat :=
  match g key with
  | some s => natOfDigits s
  | none => dflt

/-- The solver module's constants as bound from the process environment
at import time (`solver.py` lines 21-29). -/
def solverImportCfg (g : Str → Option Str) : SolverCfg :=
  { strict := envBoolD g ("STRICT_CITATION".data) ("false".data)
    strictLawGuard := envBoolD g ("STRICT_LAW_GUARD".data) ("false".data)
    adaptive := envBoolD g ("ADAPTIVE_MINLEN".data) ("true".data)
    minlenShort := envNatD g ("MINLEN_SHORT".data) 60
    minlenLong := envNatD g ("MINLEN_LONG".data) 90
    shortArticleThreshold := envNatD g ("SHORT_ARTICLE_THRESHOLD".data) 800 }

/-- The environment overrides `_solve_with_fallback` writes into
`os.environ` before its retry. -/
def relaxEnv (g : Str → Option Str) : Str → Option Str := fun k =>
  if k = ("MINLEN_SHORT".data) then some ("30".data)
  else if k = ("MINLEN_LONG".data) then some ("45".data)
  else if k = ("STRICT_LAW_GUARD".data) then some ("false".data)
  else if k = ("STRICT_CITATION".data) then some ("false".data)
  else g k

/-- The configuration the spec intends the permissive retry to run under:
the solver constants re-read from the mutated environment. -/
def specRelaxedCfg (g : Str → Option Str) : SolverCfg :=
  solverImportCfg (relaxEnv g)

/-- Outcome of `_solve_with_fallback`: `info = none` is the synthetic
`{"tiene_cita": False, …, "error": "sin_evidencia"}` dictionary of its
last resort. -/
structure FallbackOut where
  just : Str
  info : Option Info
  usoFallback : Bool
deriving DecidableEq

/-- `_solve_with_fallback` from `run_batch.py`.  The first attempt and
the retry both call `solve_question`, whose configuration constants were
bound from the environment at module import (`solverImportCfg g`); the
retry's `os.environ` writes (`relaxEnv`) are therefore invisible to it.
The retry happens at most once, when `FALLBACK_RETRIEVAL` is enabled. -/
def solve_with_fallback (E : SolveEnv) (g : Str → Option Str)
    (enunciado opcion mode : Str) : FallbackOut :=
  let cfg := solverImportCfg g
  let fallbackEnabled := envBoolD g ("FALLBACK_RETRIEVAL".data) ("true".data)
  let retry : FallbackOut :=
    if fallbackEnabled then
      -- os.environ now holds `relaxEnv g`; solve_question still runs
      -- under the import-time `cfg`
      match solve_question E cfg enunciado opcion mode with
      | .ok ji => ⟨ji.1, some ji.2, true⟩
      | .error _ => ⟨[], none, false⟩
    else ⟨[], none, false⟩
  match solve_question E cfg enunciado opcion mode with
  | .ok ji => if ji.2.tiene_cita then ⟨ji.1, some ji.2, false⟩ else retry
  | .error _ => retry

/-! ### Concrete environments used by the witness theorems -/

/-- A candidate payload pointing at a text file of law `"qq"`. -/
def witPayload : Payload :=
  { ley_id := some ("qq".data), ruta_origen := some ("f.txt".data) }

/-- A solver environment with one law alias `"zz"`, one retrieved text
candidate from law `"qq"`, and inert PDF/LLM collaborators. -/
def witEnv : SolveEnv :=
  { aliasTab := [(("zz".data), ("Ley Zeta".data))]
    emb := fun _ => [0]
    searchTxtByRef := fun _ _ _ _ => []
    searchTxtInLaws := fun _ _ _ => [⟨1 / 2, witPayload⟩]
    searchPdfLey := fun _ _ _ => []
    searchPdfTemas := fun _ _ => []
    rerankScores := fun _ _ => [1 / 2]
    readText := fun p => if p = ("f.txt".data) then some ("zzz xxx yyy.".data) else none
    generate := fun _ _ => none }

/-- The same environment with an empty law-text index. -/
def witEnvEmpty : SolveEnv :=
  { witEnv with searchTxtInLaws := fun _ _ _ => [] }

/-- An import-time process environment with strict citation and strict
law guard enabled. -/
def witEnvStrict : Str → Option Str := fun k =>
  if k = ("STRICT_CITATION".data) then some ("true".data)
  else if k = ("STRICT_LAW_GUARD".data) then some ("true".data)
  else none

/-- A classifier environment with a single law and a constant (zero)
embedding collaborator. -/
def witClassEnv : ClassEnv :=
  ⟨[(("l1".data), ("aaaa bbbb".data))], fun _ => [0]⟩

/-- The flattened list of `agg[idx] += 1/(k+rank)` operations the
`rrf_fuse` loop performs, in order. -/
def aggOps (k : ℚ) (rankings : List (List Nat)) : List (Nat × ℚ) :=
  rankings.flatMap (fun r =>
    (List.enumFrom 1 r).map (fun p => (p.2, 1 / (k + (p.1 : ℚ)))))

/-- Total amount the operation list adds to one key. -/
def opsSum (ops : List (Nat × ℚ)) (i : Nat) : ℚ :=
  ((ops.filter (fun q => q.1 = i)).map Prod.snd).sum

/-! ## Lemmas about the canonicalisation map (`cwmF`) -/

theorem cwmF_cons_space_true (c : Char) (r : Str) (i : Nat) (hc : pySpace c = true) :
    cwmF true i (c :: r) = cwmF true (i + 1) r := by
  simp [cwmF, hc]

theorem cwmF_cons_space_false (c : Char) (r : Str) (i : Nat) (hc : pySpace c = true) :
    cwmF false i (c :: r) = (' ', i) :: cwmF true (i + 1) r := by
  simp [cwmF, hc]

theorem cwmF_cons_nonspace (prev : Bool) (c : Char) (r : Str) (i : Nat)
    (hc : pySpace c = false) :
    cwmF prev i (c :: r) = (c, i) :: cwmF false (i + 1) r := by
  simp [cwmF, hc]

theorem collapseF_cons_space_true (c : Char) (r : Str) (hc : pySpace c = true) :
    collapseF true (c :: r) = collapseF true r := by
  simp [collapseF, hc]

theorem collapseF_cons_space_false (c : Char) (r : Str) (hc : pySpace c = true) :
    collapseF false (c :: r) = ' ' :: collapseF true r := by
  simp [collapseF, hc]

theorem collapseF_cons_nonspace (prev : Bool) (c : Char) (r : Str)
    (hc : pySpace c = false) :
    collapseF prev (c :: r) = c :: collapseF false r := by
  simp [collapseF, hc]

theorem cwmF_snd_bounds : ∀ (t : Str) (i : Nat) (prev : Bool),
    ∀ p ∈ cwmF prev i t, i ≤ p.2 ∧ p.2 < i + t.length := by
  intro t
  induction t with
  | nil => intro i prev p hp; simp [cwmF] at hp
  | cons c r ih =>
    intro i prev p hp
    by_cases hc : pySpace c
    · cases prev with
      | true =>
        rw [cwmF_cons_space_true c r i hc] at hp
        have := ih (i + 1) true p hp
        constructor
        · omega
        · simp only [List.length_cons]; omega
      | false =>
        rw [cwmF_cons_space_false c r i hc, List.mem_cons] at hp
        obtain h1 | h1 := hp
        · subst h1; simp only [List.length_cons]; omega
        · have := ih (i + 1) true p h1
          constructor
          · omega
          · simp only [List.length_cons]; omega
    · rw [cwmF_cons_nonspace prev c r i (by simpa using hc), List.mem_cons] at hp
      obtain h1 | h1 := hp
      · subst h1; simp only [List.length_cons]; omega
      · have := ih (i + 1) false p h1
        constructor
        · omega
        · simp only [List.length_cons]; omega

theorem cwmF_snd_pairwise : ∀ (t : Str) (i : Nat) (prev : Bool),
    (cwmF prev i t).Pairwise (fun a b => a.2 < b.2) := by
  intro t
  induction t with
  | nil => intro i prev; simp [cwmF]
  | cons c r ih =>
    intro i prev
    by_cases hc : pySpace c
    · cases prev with
      | true => rw [cwmF_cons_space_true c r i hc]; exact ih (i + 1) true
      | false =>
        rw [cwmF_cons_space_false c r i hc]
        refine List.Pairwise.cons ?_ (ih (i + 1) true)
        intro p hp
        have := cwmF_snd_bounds r (i + 1) true p hp
        simp only
        omega
    · rw [cwmF_cons_nonspace prev c r i (by simpa using hc)]
      refine List.Pairwise.cons ?_ (ih (i + 1) false)
      intro p hp
      have := cwmF_snd_bounds r (i + 1) false p hp
      simp only
      omega

theorem cwmF_fst_collapse : ∀ (t : Str) (i : Nat) (prev : Bool),
    (cwmF prev i t).map Prod.fst = collapseF prev t := by
  intro t
  induction t with
  | nil => intro i prev; simp [cwmF, collapseF]
  | cons c r ih =>
    intro i prev
    by_cases hc : pySpace c
    · cases prev with
      | true =>
        rw [cwmF_cons_space_true c r i hc, collapseF_cons_space_true c r hc]
        exact ih (i + 1) true
      | false =>
        rw [cwmF_cons_space_false c r i hc, collapseF_cons_space_false c r hc,
          List.map_cons]
        exact congrArg (' ' :: ·) (ih (i + 1) true)
    · rw [cwmF_cons_nonspace prev c r i (by simpa using hc),
        collapseF_cons_nonspace prev c r (by simpa using hc), List.map_cons]
      exact congrArg (c :: ·) (ih (i + 1) false)

theorem cwmF_fst_mem : ∀ (t : Str) (i : Nat) (prev : Bool),
    ∀ p ∈ cwmF prev i t, p.1 = ' ' ∨ (p.1 ∈ t ∧ pySpace p.1 = false) := by
  intro t
  induction t with
  | nil => intro i prev p hp; simp [cwmF] at hp
  | cons c r ih =>
    intro i prev p hp
    by_cases hc : pySpace c
    · cases prev with
      | true =>
        rw [cwmF_cons_space_true c r i hc] at hp
        rcases ih (i + 1) true p hp with h1 | h1
        · exact Or.inl h1
        · exact Or.inr ⟨List.mem_cons_of_mem _ h1.1, h1.2⟩
      | false =>
        rw [cwmF_cons_space_false c r i hc, List.mem_cons] at hp
        obtain h1 | h1 := hp
        · subst h1; exact Or.inl rfl
        · rcases ih (i + 1) true p h1 with h2 | h2
          · exact Or.inl h2
          · exact Or.inr ⟨List.mem_cons_of_mem _ h2.1, h2.2⟩
    · rw [cwmF_cons_nonspace prev c r i (by simpa using hc), List.mem_cons] at hp
      obtain h1 | h1 := hp
      · subst h1; exact Or.inr ⟨List.mem_cons_self _ _, by simpa using hc⟩
      · rcases ih (i + 1) false p h1 with h2 | h2
        · exact Or.inl h2
        · exact Or.inr ⟨List.mem_cons_of_mem _ h2.1, h2.2⟩

theorem mem_of_some_at {α : Type} {l : List α} {k : Nat} {a : α}
    (h : l[k]? = some a) : a ∈ l := by
  obtain ⟨hlt, hEq⟩ := List.getElem?_eq_some.1 h
  exact hEq ▸ List.getElem_mem hlt

/-- Prefix form of the interval round-trip: collapsing the original text
up to (and including) the source position of the `k`-th canonical
character reproduces the first `k+1` canonical characters, provided that
character is not a collapsed space. -/
theorem cwmF_take : ∀ (t : Str) (i : Nat) (prev : Bool) (k : Nat) (p : Char × Nat),
    (cwmF prev i t)[k]? = some p → p.1 ≠ ' ' →
    collapseF prev (t.take (p.2 + 1 - i)) =
      ((cwmF prev i t).take (k + 1)).map Prod.fst := by
  intro t
  induction t with
  | nil => intro i prev k p hp; simp [cwmF] at hp
  | cons c r ih =>
    intro i prev k p hp hne
    by_cases hc : pySpace c
    · cases prev with
      | true =>
        rw [cwmF_cons_space_true c r i hc] at hp ⊢
        have hb := cwmF_snd_bounds r (i + 1) true p (mem_of_some_at hp)
        have h1 : p.2 + 1 - i = (p.2 + 1 - (i + 1)) + 1 := by omega
        rw [h1, List.take_succ_cons, collapseF_cons_space_true c _ hc]
        exact ih (i + 1) true k p hp hne
      | false =>
        rw [cwmF_cons_space_false c r i hc] at hp ⊢
        cases k with
        | zero =>
          rw [List.getElem?_cons_zero] at hp
          injection hp with h
          subst h
          exact absurd rfl hne
        | succ k' =>
          rw [List.getElem?_cons_succ] at hp
          have hb := cwmF_snd_bounds r (i + 1) true p (mem_of_some_at hp)
          have h1 : p.2 + 1 - i = (p.2 + 1 - (i + 1)) + 1 := by omega
          rw [h1, List.take_succ_cons, collapseF_cons_space_false c _ hc,
            List.take_succ_cons, List.map_cons]
          exact congrArg (' ' :: ·) (ih (i + 1) true k' p hp hne)
    · have hc' : pySpace c = false := by simpa using hc
      rw [cwmF_cons_nonspace prev c r i hc'] at hp ⊢
      cases k with
      | zero =>
        rw [List.getElem?_cons_zero] at hp
        injection hp with h
        subst h
        simp only [List.take_succ_cons, Nat.add_sub_cancel_left, Nat.sub_self,
          List.take_zero, List.take, List.map_cons, List.map_nil]
        rw [collapseF_cons_nonspace prev c [] hc']
        rfl
      | succ k' =>
        rw [List.getElem?_cons_succ] at hp
        have hb := cwmF_snd_bounds r (i + 1) false p (mem_of_some_at hp)
        have h1 : p.2 + 1 - i = (p.2 + 1 - (i + 1)) + 1 := by omega
        rw [h1, List.take_succ_cons, collapseF_cons_nonspace prev c _ hc',
          List.take_succ_cons, List.map_cons]
        exact congrArg (c :: ·) (ih (i + 1) false k' p hp hne)

/-- Suffix form: re-running the canonicalisation from the source position
of the `j`-th canonical character (a non-space one), with any previous
flag, reproduces the canonical tail from `j`. -/
theorem cwmF_drop : ∀ (t : Str) (i : Nat) (prev : Bool) (j : Nat) (p : Char × Nat),
    (cwmF prev i t)[j]? = some p → p.1 ≠ ' ' →
    ∀ prev', cwmF prev' p.2 (t.drop (p.2 - i)) = (cwmF prev i t).drop j := by
  intro t
  induction t with
  | nil => intro i prev j p hp; simp [cwmF] at hp
  | cons c r ih =>
    intro i prev j p hp hne prev'
    by_cases hc : pySpace c
    · cases prev with
      | true =>
        rw [cwmF_cons_space_true c r i hc] at hp ⊢
        have hb := cwmF_snd_bounds r (i + 1) true p (mem_of_some_at hp)
        have h1 : p.2 - i = (p.2 - (i + 1)) + 1 := by omega
        rw [h1, List.drop_succ_cons]
        exact ih (i + 1) true j p hp hne prev'
      | false =>
        rw [cwmF_cons_space_false c r i hc] at hp ⊢
        cases j with
        | zero =>
          rw [List.getElem?_cons_zero] at hp
          injection hp with h
          subst h
          exact absurd rfl hne
        | succ j' =>
          rw [List.getElem?_cons_succ] at hp
          have hb := cwmF_snd_bounds r (i + 1) true p (mem_of_some_at hp)
          have h1 : p.2 - i = (p.2 - (i + 1)) + 1 := by omega
          rw [h1, List.drop_succ_cons, List.drop_succ_cons]
          exact ih (i + 1) true j' p hp hne prev'
    · have hc' : pySpace c = false := by simpa using hc
      rw [cwmF_cons_nonspace prev c r i hc'] at hp ⊢
      cases j with
      | zero =>
        rw [List.getElem?_cons_zero] at hp
        injection hp with h
        subst h
        simp only [Nat.sub_self, List.drop_zero, List.drop]
        rw [cwmF_cons_nonspace prev' c r i hc']
      | succ j' =>
        rw [List.getElem?_cons_succ] at hp
        have hb := cwmF_snd_bounds r (i + 1) false p (mem_of_some_at hp)
        have h1 : p.2 - i = (p.2 - (i + 1)) + 1 := by omega
        rw [h1, List.drop_succ_cons, List.drop_succ_cons]
        exact ih (i + 1) false j' p hp hne prev'

/-- The canonical characters never contain two adjacent spaces, and with
the previous-char-was-space flag set the first emitted character is not a
space. -/
theorem cwmF_chain : ∀ (t : Str) (i : Nat) (prev : Bool),
    List.Chain' (fun a b => a ≠ ' ' ∨ b ≠ ' ') ((cwmF prev i t).map Prod.fst) ∧
    (prev = true → ∀ c ∈ ((cwmF prev i t).map Prod.fst).head?, c ≠ ' ') := by
  intro t
  induction t with
  | nil => intro i prev; simp [cwmF]
  | cons c r ih =>
    intro i prev
    by_cases hc : pySpace c
    · cases prev with
      | true =>
        rw [cwmF_cons_space_true c r i hc]
        exact ih (i + 1) true
      | false =>
        rw [cwmF_cons_space_false c r i hc, List.map_cons]
        constructor
        · rw [List.chain'_cons']
          exact ⟨fun y hy => Or.inr ((ih (i + 1) true).2 rfl y hy),
            (ih (i + 1) true).1⟩
        · intro h; cases h
    · have hc' : pySpace c = false := by simpa using hc
      have hcs : c ≠ ' ' := by
        intro h; subst h; simp [pySpace] at hc'
      rw [cwmF_cons_nonspace prev c r i hc', List.map_cons]
      constructor
      · rw [List.chain'_cons']
        exact ⟨fun y _ => Or.inl hcs, (ih (i + 1) false).1⟩
      · intro _ d hd
        simp only [List.head?_cons, Option.mem_def, Option.some.injEq] at hd
        subst hd; exact hcs

/-- Strip only removes whitespace at the two ends: the stripped string
sits inside the original. -/
theorem stripW_decomp (l : Str) :
    l = (l.takeWhile pySpace) ++ stripW l ++
      ((l.dropWhile pySpace).reverse.takeWhile pySpace).reverse := by
  conv_lhs => rw [← List.takeWhile_append_dropWhile (p := pySpace) (l := l)]
  rw [List.append_assoc]
  congr 1
  have h := List.takeWhile_append_dropWhile (p := pySpace)
    (l := (l.dropWhile pySpace).reverse)
  have h2 := congrArg List.reverse h
  rw [List.reverse_append, List.reverse_reverse] at h2
  exact h2.symm

/-- With a non-space head, stripping is the identity on the left: the
stripped string is a prefix of the original. -/
theorem stripW_head (l : Str) (h : ∀ c ∈ l.head?, pySpace c = false) :
    ∃ v, l = stripW l ++ v ∧ (∀ c ∈ v, pySpace c = true) := by
  have hdw : l.dropWhile pySpace = l := by
    cases l with
    | nil => rfl
    | cons c r =>
      have : pySpace c = false := h c rfl
      exact List.dropWhile_cons_of_neg (by simp [this])
  refine ⟨((l.dropWhile pySpace).reverse.takeWhile pySpace).reverse, ?_, ?_⟩
  · have := stripW_decomp l
    rwa [show l.takeWhile pySpace = [] from ?_, List.nil_append] at this
    cases l with
    | nil => rfl
    | cons c r =>
      have : pySpace c = false := h c rfl
      simp [List.takeWhile_cons, this]
  · intro c hc
    have := List.mem_takeWhile_imp (l := (l.dropWhile pySpace).reverse)
      (p := pySpace) (by simpa using hc)
    exact this

/-- Stripping a string whose two ends are non-space is the identity. -/
theorem stripW_id (l : Str) (h1 : ∀ c ∈ l.head?, pySpace c = false)
    (h2 : ∀ c ∈ l.getLast?, pySpace c = false) : stripW l = l := by
  have hdw : l.dropWhile pySpace = l := by
    cases l with
    | nil => rfl
    | cons c r =>
      have : pySpace c = false := h1 c rfl
      exact List.dropWhile_cons_of_neg (by simp [this])
  have hdw2 : l.reverse.dropWhile pySpace = l.reverse := by
    cases hrev : l.reverse with
    | nil => rfl
    | cons c r =>
      have hc : c ∈ l.getLast? := by
        rw [← List.head?_reverse, hrev]; rfl
      exact List.dropWhile_cons_of_neg (by simp [h2 c hc])
  unfold stripW
  rw [hdw, hdw2, List.reverse_reverse]

theorem collapseF_true_eq (l : Str) (h : ∀ c ∈ l.head?, pySpace c = false) :
    collapseF true l = collapseF false l := by
  cases l with
  | nil => rfl
  | cons c r =>
    have hc : pySpace c = false := h c rfl
    rw [collapseF_cons_nonspace true c r hc, collapseF_cons_nonspace false c r hc]

/-- Collapsing is the identity on a string whose whitespace characters
are all `' '` with no two adjacent. -/
theorem collapseF_id : ∀ l : Str,
    (∀ c ∈ l, pySpace c = true → c = ' ') →
    List.Chain' (fun a b => a ≠ ' ' ∨ b ≠ ' ') l →
    collapseF false l = l := by
  intro l
  induction l with
  | nil => intro _ _; rfl
  | cons c r ih =>
    intro hsp hch
    have hch' := (List.chain'_cons'.1 hch)
    by_cases hc : pySpace c
    · have hcsp : c = ' ' := hsp c (List.mem_cons_self _ _) hc
      subst hcsp
      rw [collapseF_cons_space_false _ _ hc]
      have hhead : ∀ d ∈ r.head?, pySpace d = false := by
        intro d hd
        rcases hch'.1 d hd with h1 | h1
        · exact absurd rfl h1
        · by_cases hds : pySpace d
          · exact absurd (hsp d (List.mem_cons_of_mem _ (List.mem_of_mem_head? hd)) hds) h1
          · simpa using hds
      rw [collapseF_true_eq r hhead]
      exact congrArg (' ' :: ·)
        (ih (fun d hd => hsp d (List.mem_cons_of_mem _ hd)) hch'.2)
    · rw [collapseF_cons_nonspace false c r (by simpa using hc)]
      exact congrArg (c :: ·)
        (ih (fun d hd => hsp d (List.mem_cons_of_mem _ hd)) hch'.2)

theorem normQuote_idem (c : Char) :
    normQuoteChar (normQuoteChar c) = normQuoteChar c := by
  by_cases h1 : c = '“'
  · subst h1; rfl
  · by_cases h2 : c = '”'
    · subst h2; rfl
    · by_cases h3 : c = '’'
      · subst h3; rfl
      · by_cases h4 : c = '‘'
        · subst h4; rfl
        · have h : normQuoteChar c = c := by
            simp [normQuoteChar, h1, h2, h3, h4]
          rw [h, h]

theorem mapIdOn : ∀ (l : Str) (f : Char → Char), (∀ c ∈ l, f c = c) → l.map f = l := by
  intro l f
  induction l with
  | nil => intro _; rfl
  | cons c r ih =>
    intro h
    rw [List.map_cons, h c (List.mem_cons_self _ _),
      ih (fun d hd => h d (List.mem_cons_of_mem _ hd))]

theorem chainOfDecomp {l₁ l : List Char} {R : Char → Char → Prop}
    (h : List.Chain' R l) (hinf : ∃ u v, l = u ++ l₁ ++ v) :
    List.Chain' R l₁ := by
  obtain ⟨u, v, rfl⟩ := hinf
  rw [List.append_assoc] at h
  exact (List.chain'_append.1 ((List.chain'_append.1 h).2.1)).1

theorem memOfDecomp {l₁ l : List Char} (hinf : ∃ u v, l = u ++ l₁ ++ v) :
    ∀ c ∈ l₁, c ∈ l := by
  obtain ⟨u, v, rfl⟩ := hinf
  intro c hc
  exact List.mem_append_left _ (List.mem_append_right _ hc)

/-- The characters of the collapsed, quote-normalised context: whitespace
is only `' '`, no two adjacent spaces, and each is fixed by quote
normalisation. -/
theorem canonChars (t : Str) :
    (∀ c ∈ collapseF false (t.map normQuoteChar), pySpace c = true → c = ' ') ∧
    List.Chain' (fun a b => a ≠ ' ' ∨ b ≠ ' ') (collapseF false (t.map normQuoteChar)) ∧
    (∀ c ∈ collapseF false (t.map normQuoteChar), normQuoteChar c = c) := by
  have hmap := cwmF_fst_collapse (t.map normQuoteChar) 0 false
  refine ⟨?_, ?_, ?_⟩
  · intro c hc hsp
    rw [← hmap] at hc
    obtain ⟨p, hp, rfl⟩ := List.mem_map.1 hc
    rcases cwmF_fst_mem _ 0 false p hp with h | h
    · exact h
    · rw [h.2] at hsp; cases hsp
  · rw [← hmap]; exact (cwmF_chain _ 0 false).1
  · intro c hc
    rw [← hmap] at hc
    obtain ⟨p, hp, rfl⟩ := List.mem_map.1 hc
    rcases cwmF_fst_mem _ 0 false p hp with h | h
    · rw [h]; rfl
    · obtain ⟨x, _, hx⟩ := List.mem_map.1 h.1
      rw [← hx]
      exact normQuote_idem x

/-- A substring of a canonical string that does not start or end with a
space is its own canonical form. -/
theorem canonical_of_sub (context s : Str)
    (h : ∃ u v, canonical context = u ++ s ++ v)
    (hs1 : ∀ c ∈ s.head?, c ≠ ' ') (hs2 : ∀ c ∈ s.getLast?, c ≠ ' ') :
    canonical s = s := by
  obtain ⟨hsp, hch, hnq⟩ := canonChars context
  -- the canonical context is itself a decomposition of the collapsed string
  have hdec : ∃ u v, collapseF false (context.map normQuoteChar) =
      u ++ canonical context ++ v := by
    refine ⟨(collapseF false (context.map normQuoteChar)).takeWhile pySpace,
      ((collapseF false (context.map normQuoteChar)).dropWhile pySpace).reverse.takeWhile
        pySpace |>.reverse, ?_⟩
    exact stripW_decomp _
  have hdecS : ∃ u v, collapseF false (context.map normQuoteChar) = u ++ s ++ v := by
    obtain ⟨u1, v1, h1⟩ := hdec
    obtain ⟨u2, v2, h2⟩ := h
    exact ⟨u1 ++ u2, v2 ++ v1, by rw [h1, h2]; simp [List.append_assoc]⟩
  have hmem := memOfDecomp hdecS
  have hspS : ∀ c ∈ s, pySpace c = true → c = ' ' :=
    fun c hc => hsp c (hmem c hc)
  have hchS := chainOfDecomp hch hdecS
  have hnqS : s.map normQuoteChar = s :=
    mapIdOn s _ (fun c hc => hnq c (hmem c hc))
  have hends1 : ∀ c ∈ s.head?, pySpace c = false := by
    intro c hc
    by_cases hcs : pySpace c
    · exact absurd (hspS c (List.mem_of_mem_head? hc) hcs) (hs1 c hc)
    · simpa using hcs
  have hends2 : ∀ c ∈ s.getLast?, pySpace c = false := by
    intro c hc
    by_cases hcs : pySpace c
    · exact absurd (hspS c (List.mem_of_mem_getLast? hc) hcs) (hs2 c hc)
    · simpa using hcs
  unfold canonical
  rw [hnqS, collapseF_id s hspS hchS, stripW_id s hends1 hends2]

/-- Non-space canonical characters are genuinely non-whitespace. -/
theorem cwmF_fst_nonspace {t : Str} {i : Nat} {prev : Bool} {p : Char × Nat}
    (hp : p ∈ cwmF prev i t) (hne : p.1 ≠ ' ') : pySpace p.1 = false := by
  rcases cwmF_fst_mem t i prev p hp with h | h
  · exact absurd h hne
  · exact h.2

/-- The interval round-trip: collapsing-and-stripping the original slice
between the source positions of two non-space canonical characters
reproduces exactly that canonical interval. -/
theorem cwmF_interval (t : Str) (j k : Nat) (pj pk : Char × Nat)
    (hjk : j ≤ k)
    (hj : (cwmF false 0 t)[j]? = some pj) (hk : (cwmF false 0 t)[k]? = some pk)
    (hj1 : pj.1 ≠ ' ') (hk1 : pk.1 ≠ ' ') :
    stripW (collapseF false (pySlice t pj.2 (pk.2 + 1))) =
      (((cwmF false 0 t).drop j).take (k - j + 1)).map Prod.fst := by
  have hdrop := cwmF_drop t 0 false j pj hj hj1 false
  rw [Nat.sub_zero] at hdrop
  have hk' : ((cwmF false 0 t).drop j)[k - j]? = some pk := by
    rw [List.getElem?_drop]
    rwa [show j + (k - j) = k by omega]
  have hk'' : (cwmF false pj.2 (t.drop pj.2))[k - j]? = some pk := by
    rw [hdrop]; exact hk'
  have htake := cwmF_take (t.drop pj.2) pj.2 false (k - j) pk hk'' hk1
  have hslice : pySlice t pj.2 (pk.2 + 1) = (t.drop pj.2).take (pk.2 + 1 - pj.2) := rfl
  rw [hslice, htake, hdrop]
  -- it remains to drop the strip: the interval starts and ends non-space
  have hklen : k < (cwmF false 0 t).length :=
    (List.getElem?_eq_some.1 hk).1
  set out := (((cwmF false 0 t).drop j).take (k - j + 1)).map Prod.fst with hout
  have hhead : out.head? = some pj.1 := by
    rw [hout, List.head?_eq_getElem?, List.getElem?_map, List.getElem?_take]
    simp only [Nat.zero_lt_succ, if_true, List.getElem?_drop, Nat.add_zero]
    rw [hj]
    rfl
  have hlen : out.length = k - j + 1 := by
    rw [hout, List.length_map, List.length_take, List.length_drop]
    omega
  have hlast : out.getLast? = some pk.1 := by
    rw [List.getLast?_eq_getElem?, hlen, Nat.add_sub_cancel, hout,
      List.getElem?_map, List.getElem?_take]
    simp only [Nat.lt_succ_self, if_true, List.getElem?_drop]
    rw [show j + (k - j) = k by omega, hk]
    rfl
  refine stripW_id out ?_ ?_
  · intro c hc
    rw [hhead] at hc
    obtain rfl : pj.1 = c := by simpa using hc
    exact cwmF_fst_nonspace (mem_of_some_at hj) hj1
  · intro c hc
    rw [hlast] at hc
    obtain rfl : pk.1 = c := by simpa using hc
    exact cwmF_fst_nonspace (mem_of_some_at hk) hk1


/-- `str.find` succeeds on any actual substring. -/
theorem findSub_some_of_sub (hay pat : Str) (h : ∃ u v, hay = u ++ pat ++ v) :
    ∃ pos, findSub hay pat = some pos := by
  obtain ⟨u, v, rfl⟩ := h
  have hmatch : matchesAt (u ++ pat ++ v) pat u.length = true := by
    unfold matchesAt
    rw [List.append_assoc, List.drop_left, List.take_append_of_le_length le_rfl,
      List.take_length]
    exact beq_self_eq_true _
  have hsome : (findSub (u ++ pat ++ v) pat).isSome = true := by
    unfold findSub
    rw [List.find?_isSome]
    refine ⟨u.length, List.mem_range.2 ?_, hmatch⟩
    simp only [List.length_append]
    omega
  exact Option.isSome_iff_exists.1 hsome

/-- What a successful `str.find` guarantees. -/
theorem findSub_spec (hay pat : Str) (pos : Nat)
    (h : findSub hay pat = some pos) :
    (hay.drop pos).take pat.length = pat ∧
      (pat ≠ [] → pos + pat.length ≤ hay.length) := by
  have hp := List.find?_some h
  have heq : (hay.drop pos).take pat.length = pat := by
    simpa [matchesAt] using hp
  refine ⟨heq, fun hne => ?_⟩
  have hlen := congrArg List.length heq
  rw [List.length_take, List.length_drop] at hlen
  have : pat.length ≠ 0 := by
    intro h0
    exact hne (List.eq_nil_of_length_eq_zero h0)
  omega

theorem normQuote_space (c : Char) : pySpace (normQuoteChar c) = pySpace c := by
  by_cases h1 : c = '“'
  · subst h1; rfl
  · by_cases h2 : c = '”'
    · subst h2; rfl
    · by_cases h3 : c = '’'
      · subst h3; rfl
      · by_cases h4 : c = '‘'
        · subst h4; rfl
        · rw [show normQuoteChar c = c by simp [normQuoteChar, h1, h2, h3, h4]]

/-- C1 (amended): span round-trip for `find_span_exact`, in the form the
code actually guarantees.  For every context that does not begin with
whitespace and every non-empty substring `s` of its canonical form that
neither begins nor ends with a space, `find_span_exact(context, s)`
returns a pair `(start, end)` with `canonical(context[start:end]) = s`.
The two extra conditions are forced by the source: `_canonical_with_map`
strips the canonical string after building the index map, so a stripped
leading space shifts every mapped offset, and a quote's own
canonicalisation strips its edge spaces, so the span covers only the
stripped core. -/
theorem find_span_exact_roundtrip (context s : Str)
    (hc0 : context ≠ [])
    (hhead : ∀ c ∈ context.head?, pySpace c = false)
    (hs0 : s ≠ [])
    (hsub : ∃ u v, canonical context = u ++ s ++ v)
    (hs1 : ∀ c ∈ s.head?, c ≠ ' ')
    (hs2 : ∀ c ∈ s.getLast?, c ≠ ' ') :
    ∃ a b, find_span_exact context s = some (a, b) ∧
      canonical (pySlice context a b) = s := by
  classical
  set t := context.map normQuoteChar with ht
  set P := cwmF false 0 t with hP
  have hout : P.map Prod.fst = collapseF false t := cwmF_fst_collapse t 0 false
  have hccan : canonical context = stripW (P.map Prod.fst) := by
    rw [hout]; rfl
  set ccan := stripW (P.map Prod.fst) with hccan'
  -- the canonical quote of `s` is `s` itself
  have hqcan : stripW ((cwmF false 0 (s.map normQuoteChar)).map Prod.fst) =
      canonical s := by
    rw [cwmF_fst_collapse]; rfl
  have hscan : canonical s = s := canonical_of_sub context s hsub hs1 hs2
  -- the stripped canonical context is a prefix of the unstripped one
  have hohead : ∀ c ∈ (P.map Prod.fst).head?, pySpace c = false := by
    intro c hc
    rw [hout] at hc
    cases context with
    | nil => exact absurd rfl hc0
    | cons c0 r0 =>
      have hc0' : pySpace c0 = false := hhead c0 rfl
      have : t = normQuoteChar c0 :: r0.map normQuoteChar := by rw [ht]; rfl
      rw [this, collapseF_cons_nonspace false _ _ (by
        rw [normQuote_space]; exact hc0')] at hc
      obtain rfl : normQuoteChar c0 = c := by simpa using hc
      rw [normQuote_space]; exact hc0'
  obtain ⟨w, hw, hwsp⟩ := stripW_head (P.map Prod.fst) hohead
  rw [← hccan'] at hw
  -- locate the quote
  have hsubc : ∃ u v, ccan = u ++ s ++ v := by
    rw [hccan] at hsub; exact hsub
  have hcne : ccan ≠ [] := by
    obtain ⟨u, v, he⟩ := hsubc
    intro h0
    rw [h0] at he
    have := congrArg List.length he
    simp only [List.length_nil, List.length_append] at this
    have : s.length = 0 := by omega
    exact hs0 (List.eq_nil_of_length_eq_zero this)
  obtain ⟨pos, hfind⟩ := findSub_some_of_sub ccan s hsubc
  obtain ⟨hslice, hfit⟩ := findSub_spec ccan s pos hfind
  have hfit' : pos + s.length ≤ ccan.length := hfit hs0
  have hslen : 1 ≤ s.length := by
    cases s with
    | nil => exact absurd rfl hs0
    | cons _ _ => simp
  -- positions in the canonical context
  have hdot : ∀ d, d < s.length → ccan[pos + d]? = s[d]? := by
    intro d hd
    conv_rhs => rw [← hslice]
    rw [List.getElem?_take, List.getElem?_drop]
    simp [hd]
  set k := pos + s.length - 1 with hk
  have hjk : pos ≤ k := by omega
  -- lift them to the unstripped canonical list and the pair list
  have houtAt : ∀ x, x < ccan.length → (P.map Prod.fst)[x]? = ccan[x]? := by
    intro x hx
    rw [hw]
    exact List.getElem?_append_left hx
  have hPj : ∃ pj : Char × Nat, P[pos]? = some pj ∧ some pj.1 = s[0]? := by
    have h1 : (P.map Prod.fst)[pos]? = s[0]? := by
      rw [houtAt pos (by omega)]
      have := hdot 0 (by omega)
      simpa using this
    rw [List.getElem?_map] at h1
    cases hPp : P[pos]? with
    | none => rw [hPp] at h1; simp at h1; exact absurd h1.symm (by
        cases s with
        | nil => exact absurd rfl hs0
        | cons a l => simp)
    | some pj => rw [hPp] at h1; exact ⟨pj, rfl, by simpa using h1⟩
  have hPk : ∃ pk : Char × Nat, P[k]? = some pk ∧ some pk.1 = s[s.length - 1]? := by
    have h1 : (P.map Prod.fst)[k]? = s[s.length - 1]? := by
      rw [houtAt k (by omega)]
      have := hdot (s.length - 1) (by omega)
      rw [show pos + (s.length - 1) = k by omega] at this
      exact this
    rw [List.getElem?_map] at h1
    cases hPp : P[k]? with
    | none =>
      rw [hPp] at h1
      simp only [Option.map_none'] at h1
      have h2 : s[s.length - 1]? ≠ none := by
        rw [ne_eq, List.getElem?_eq_none_iff]
        omega
      exact absurd h1.symm h2
    | some pk => rw [hPp] at h1; exact ⟨pk, rfl, by simpa using h1⟩
  obtain ⟨pj, hpj, hpj1⟩ := hPj
  obtain ⟨pk, hpk, hpk1⟩ := hPk
  have hpj1' : pj.1 ≠ ' ' := by
    apply hs1
    rw [List.head?_eq_getElem?, ← hpj1]
    rfl
  have hpk1' : pk.1 ≠ ' ' := by
    apply hs2
    rw [List.getLast?_eq_getElem?, ← hpk1]
    rfl
  -- the interval round-trip
  have hint := cwmF_interval t pos k pj pk hjk hpj hpk hpj1' hpk1'
  -- identify the right-hand side with `s`
  have hrhs : (((P.drop pos).take (k - pos + 1)).map Prod.fst) = s := by
    rw [List.map_take, List.map_drop]
    rw [hw, show k - pos + 1 = s.length by omega]
    rw [List.drop_append_of_le_length (by omega),
      List.take_append_of_le_length (by rw [List.length_drop]; omega)]
    exact hslice
  -- assemble the result of `find_span_exact`
  refine ⟨pj.2, pk.2 + 1, ?_, ?_⟩
  · unfold find_span_exact
    rw [if_neg (by simp [hc0, hs0])]
    simp only [canonical_with_map]
    rw [if_neg ?hne]
    case hne =>
      rw [← ht, ← hP, ← hccan']
      rw [hqcan, hscan]
      simp [hcne, hs0]
    rw [← ht, ← hP, ← hccan', hqcan, hscan, hfind]
    have hmj : (P.map Prod.snd)[pos]? = some pj.2 := by
      rw [List.getElem?_map, hpj]; rfl
    have hmk : (P.map Prod.snd)[pos + s.length - 1]? = some pk.2 := by
      rw [List.getElem?_map, ← hk, hpk]; rfl
    simp only [hmj, hmk]
  · have hmapslice : pySlice t pj.2 (pk.2 + 1) =
        (pySlice context pj.2 (pk.2 + 1)).map normQuoteChar := by
      unfold pySlice
      rw [ht, List.map_take, List.map_drop]
    rw [hmapslice] at hint
    rw [show canonical (pySlice context pj.2 (pk.2 + 1)) =
        stripW (collapseF false ((pySlice context pj.2 (pk.2 + 1)).map normQuoteChar))
        from rfl]
    rw [hint, hrhs]

/-- C10: whenever `find_span_exact(context, quote)` returns a pair
`(start, end)` rather than `None`, it satisfies
`0 ≤ start < end ≤ len(context)`, so the downstream highlighting slice
`context[start:end]` is a valid, non-empty substring: the index map's
entries are strictly increasing original offsets below `len(context)`. -/
theorem find_span_exact_bounds (context quote : Str) (a b : Nat)
    (h : find_span_exact context quote = some (a, b)) :
    a < b ∧ b ≤ context.length := by
  unfold find_span_exact at h
  split at h
  · cases h
  · simp only [canonical_with_map] at h
    split at h
    · cases h
    · rename_i hne
      split at h
      · cases h
      · rename_i pos hfind
        split at h
        · rename_i x y hx hy
          injection h with h1
          injection h1 with ha hb
          subst ha hb
          set P := cwmF false 0 (context.map normQuoteChar) with hP
          set qlen := (stripW ((cwmF false 0 (quote.map normQuoteChar)).map
            Prod.fst)).length with hql
          rw [List.getElem?_map] at hx hy
          have hxj : ∃ pj, P[pos]? = some pj ∧ pj.2 = x := by
            cases hpp : P[pos]? with
            | none => rw [hpp] at hx; cases hx
            | some pj =>
              rw [hpp] at hx
              exact ⟨pj, rfl, by injection hx⟩
          have hyk : ∃ pk, P[pos + qlen - 1]? = some pk ∧ pk.2 = y := by
            cases hpp : P[pos + qlen - 1]? with
            | none => rw [hpp] at hy; cases hy
            | some pk =>
              rw [hpp] at hy
              exact ⟨pk, rfl, by injection hy⟩
          obtain ⟨pj, hpj, hpja⟩ := hxj
          obtain ⟨pk, hpk, hpkb⟩ := hyk
          have hjlt := (List.getElem?_eq_some.1 hpj).1
          have hklt := (List.getElem?_eq_some.1 hpk).1
          have hbound := cwmF_snd_bounds (context.map normQuoteChar) 0 false pk
            (mem_of_some_at hpk)
          rw [List.length_map] at hbound
          have hqpos : 1 ≤ qlen := by
            rcases Nat.eq_zero_or_pos qlen with h0 | h1
            · exact absurd (Or.inr (List.eq_nil_of_length_eq_zero h0)) hne
            · exact h1
          have hle : pj.2 ≤ pk.2 := by
            rcases Nat.lt_or_ge pos (pos + qlen - 1) with hlt | hge
            · have hpw := cwmF_snd_pairwise (context.map normQuoteChar) 0 false
              have hrel := (List.pairwise_iff_getElem.1 hpw) pos (pos + qlen - 1)
                hjlt hklt hlt
              have hj' : P[pos] = pj := by
                have := List.getElem?_eq_getElem hjlt
                rw [hpj] at this; injection this with hh; exact hh.symm
              have hk' : P[pos + qlen - 1] = pk := by
                have := List.getElem?_eq_getElem hklt
                rw [hpk] at this; injection this with hh; exact hh.symm
              rw [hj', hk'] at hrel
              omega
            · have heq : pos = pos + qlen - 1 := by omega
              rw [← heq] at hpk
              rw [hpj] at hpk
              injection hpk with hh
              rw [hh]
          omega
        · cases h

/-- C1 counterexample to the claim as stated: for the non-empty context
`" ab"` (leading space) and the non-empty substring `"ab"` of its
canonical form, `find_span_exact` returns the span `(0, 2)`, but
canonicalising `context[0:2] = " a"` gives `"a"`, not `"ab"`: the index
map is not shifted for the stripped leading space. -/
theorem C1_span_counterexample :
    ((" ab".data) ≠ [] ∧ ("ab".data) ≠ [] ∧
      (∃ u v, canonical (" ab".data) = u ++ ("ab".data) ++ v)) ∧
    find_span_exact (" ab".data) ("ab".data) = some (0, 2) ∧
    canonical (pySlice (" ab".data) 0 2) ≠ ("ab".data) := by
  refine ⟨⟨by decide, by decide, ⟨[], [], by decide⟩⟩, by decide, by decide⟩

/-- C1 witness: a concrete instance of the amended round-trip.  In
`"a  b"` the double space collapses; the span of `"a b"` is found and
canonicalises back to it. -/
theorem C1_span_witness :
    ∃ a b, find_span_exact ("a  b".data) ("a b".data) = some (a, b) ∧
      canonical (pySlice ("a  b".data) a b) = ("a b".data) :=
  find_span_exact_roundtrip ("a  b".data) ("a b".data) (by decide)
    (by intro c hc; cases hc; decide) (by decide) ⟨[], [], by decide⟩
    (by intro c hc; cases hc; decide) (by intro c hc; cases hc; decide)

/-- C10 witness: a concrete successful span lies inside the context. -/
theorem C10_span_bounds_witness : 0 < 2 ∧ 2 ≤ ("ab".data).length :=
  find_span_exact_bounds ("ab".data) ("ab".data) 0 2 (by decide)

/-! ## Lemmas about stable descending sort -/

theorem insertDesc_perm {α : Type} (x : α × ℚ) (l : List (α × ℚ)) :
    List.Perm (insertDesc x l) (x :: l) := by
  induction l with
  | nil => rfl
  | cons y r ih =>
    unfold insertDesc
    by_cases h : x.2 < y.2
    · rw [if_pos h]
      exact (ih.cons y).trans (List.Perm.swap x y r)
    · rw [if_neg h]

theorem sortDesc_perm {α : Type} (l : List (α × ℚ)) : List.Perm (sortDesc l) l := by
  induction l with
  | nil => rfl
  | cons x r ih =>
    unfold sortDesc
    exact (insertDesc_perm x (sortDesc r)).trans (ih.cons x)

theorem insertDesc_sorted {α : Type} (x : α × ℚ) (l : List (α × ℚ))
    (h : List.Pairwise (fun a b => b.2 ≤ a.2) l) :
    List.Pairwise (fun a b => b.2 ≤ a.2) (insertDesc x l) := by
  induction l with
  | nil => simp [insertDesc]
  | cons y r ih =>
    unfold insertDesc
    by_cases hxy : x.2 < y.2
    · rw [if_pos hxy]
      rw [List.pairwise_cons] at h ⊢
      refine ⟨?_, ih h.2⟩
      intro a ha
      have := (insertDesc_perm x r).mem_iff.1 ha
      rcases List.mem_cons.1 this with h1 | h1
      · subst h1; exact le_of_lt hxy
      · exact h.1 a h1
    · rw [if_neg hxy]
      rw [List.pairwise_cons]
      refine ⟨?_, h⟩
      intro a ha
      rcases List.mem_cons.1 ha with h1 | h1
      · subst h1; exact le_of_not_lt hxy
      · rw [List.pairwise_cons] at h
        exact le_trans (h.1 a h1) (le_of_not_lt hxy)

theorem sortDesc_sorted {α : Type} (l : List (α × ℚ)) :
    List.Pairwise (fun a b => b.2 ≤ a.2) (sortDesc l) := by
  induction l with
  | nil => simp [sortDesc]
  | cons x r ih => exact insertDesc_sorted x (sortDesc r) ih

/-! ## Lemmas about the RRF aggregation -/

theorem opsSum_cons (q : Nat × ℚ) (ops : List (Nat × ℚ)) (i : Nat) :
    opsSum (q :: ops) i = (if q.1 = i then q.2 else 0) + opsSum ops i := by
  unfold opsSum
  by_cases h : q.1 = i
  · simp [List.filter_cons, h]
  · simp [List.filter_cons, h]

/-- Folding the operation list over a keyed map produces exactly the map
of accumulated sums over the encountered keys. -/
theorem aggFold_spec : ∀ (ops : List (Nat × ℚ)) (K : List Nat) (f : Nat → ℚ),
    K.Nodup →
    ∃ K2 : List Nat, K2.Nodup ∧
      (∀ i, i ∈ K2 ↔ (i ∈ K ∨ i ∈ ops.map Prod.fst)) ∧
      ops.foldl (fun a q => aggAdd a q.1 q.2) (K.map (fun i => (i, f i))) =
        K2.map (fun i => (i, (if i ∈ K then f i else 0) + opsSum ops i)) := by
  intro ops
  induction ops with
  | nil =>
    intro K f hK
    refine ⟨K, hK, by simp, ?_⟩
    simp only [List.foldl_nil]
    refine (List.map_congr_left ?_)
    intro i hi
    simp [opsSum, hi]
  | cons q ops ih =>
    intro K f hK
    rw [List.foldl_cons]
    by_cases hmem : q.1 ∈ K
    · have hadd : aggAdd (K.map (fun i => (i, f i))) q.1 q.2 =
          K.map (fun i => (i, if i = q.1 then f i + q.2 else f i)) := by
        unfold aggAdd
        rw [if_pos ?hany]
        case hany =>
          rw [List.any_eq_true]
          exact ⟨(q.1, f q.1), List.mem_map_of_mem _ hmem, by simp⟩
        rw [List.map_map]
        refine List.map_congr_left ?_
        intro i _
        by_cases hiq : i = q.1
        · simp [Function.comp, hiq]
        · simp [Function.comp, hiq]
      rw [hadd]
      obtain ⟨K2, hK2n, hK2m, hK2e⟩ := ih K
        (fun i => if i = q.1 then f i + q.2 else f i) hK
      refine ⟨K2, hK2n, ?_, ?_⟩
      · intro i
        rw [hK2m i]
        simp only [List.map_cons, List.mem_cons]
        constructor
        · rintro (h | h)
          · exact Or.inl h
          · exact Or.inr (Or.inr h)
        · rintro (h | h | h)
          · exact Or.inl h
          · rw [h]; exact Or.inl hmem
          · exact Or.inr h
      · rw [hK2e]
        refine List.map_congr_left ?_
        intro i hi
        rw [opsSum_cons]
        by_cases hiq : i = q.1
        · subst hiq
          simp only [if_pos hmem, if_pos rfl, eq_self_iff_true, if_true,
            Prod.mk.injEq, true_and]
          ring
        · have hq1i : ¬ q.1 = i := fun h => hiq h.symm
          simp only [if_neg hiq, hq1i, if_false, Prod.mk.injEq, true_and]
          by_cases hiK : i ∈ K
          · simp [hiK]
          · simp [hiK]
    · have hadd : aggAdd (K.map (fun i => (i, f i))) q.1 q.2 =
          (K ++ [q.1]).map (fun i => (i, if i = q.1 then q.2 else f i)) := by
        unfold aggAdd
        rw [if_neg ?hany]
        case hany =>
          intro hcontra
          rw [List.any_eq_true] at hcontra
          obtain ⟨ab, hab, hpred⟩ := hcontra
          obtain ⟨j, hj, rfl⟩ := List.mem_map.1 hab
          have hjq : j = q.1 := by simpa using hpred
          exact hmem (hjq ▸ hj)
        rw [List.map_append]
        congr 1
        · refine List.map_congr_left ?_
          intro i hi
          have hiq : ¬ i = q.1 := fun h => hmem (h ▸ hi)
          simp [hiq]
        · simp
      rw [hadd]
      have hKn : (K ++ [q.1]).Nodup := by
        rw [List.nodup_append]
        refine ⟨hK, List.nodup_singleton _, ?_⟩
        intro a ha hb
        rw [List.mem_singleton] at hb
        exact hmem (hb ▸ ha)
      obtain ⟨K2, hK2n, hK2m, hK2e⟩ := ih (K ++ [q.1])
        (fun i => if i = q.1 then q.2 else f i) hKn
      refine ⟨K2, hK2n, ?_, ?_⟩
      · intro i
        rw [hK2m i]
        simp only [List.mem_append, List.mem_singleton, List.map_cons, List.mem_cons]
        tauto
      · rw [hK2e]
        refine List.map_congr_left ?_
        intro i hi
        rw [opsSum_cons]
        by_cases hiq : i = q.1
        · subst hiq
          simp only [if_pos rfl, eq_self_iff_true, List.mem_append,
            List.mem_singleton, or_true, if_true, if_neg hmem,
            Prod.mk.injEq, true_and]
          ring
        · have hq1i : ¬ q.1 = i := fun h => hiq h.symm
          simp only [if_neg hiq, hq1i, if_false, List.mem_append,
            List.mem_singleton, Prod.mk.injEq, true_and]
          by_cases hiK : i ∈ K
          · simp [hiK]
          · simp [hiK, hiq]

theorem aggRanking_ops (k : ℚ) (a : List (Nat × ℚ)) (r : List Nat) :
    aggRanking k a r =
      ((List.enumFrom 1 r).map (fun p => (p.2, 1 / (k + (p.1 : ℚ))))).foldl
        (fun a q => aggAdd a q.1 q.2) a := by
  unfold aggRanking
  rw [List.foldl_map]

theorem foldl_aggOps (k : ℚ) (rankings : List (List Nat)) :
    ∀ a : List (Nat × ℚ),
      rankings.foldl (aggRanking k) a =
        (aggOps k rankings).foldl (fun a q => aggAdd a q.1 q.2) a := by
  induction rankings with
  | nil => intro a; rfl
  | cons r rs ih =>
    intro a
    rw [List.foldl_cons, ih]
    conv_rhs => rw [aggOps, List.flatMap_cons, List.foldl_append]
    rw [aggRanking_ops, aggOps]

theorem opsSum_append (l1 l2 : List (Nat × ℚ)) (i : Nat) :
    opsSum (l1 ++ l2) i = opsSum l1 i + opsSum l2 i := by
  unfold opsSum
  rw [List.filter_append, List.map_append, List.sum_append]

theorem opsSum_mapBlock (e : List (Nat × Nat)) (w : Nat × Nat → ℚ) (i : Nat) :
    opsSum (e.map (fun p => (p.2, w p))) i =
      (e.filterMap (fun p => if p.2 = i then some (w p) else none)).sum := by
  induction e with
  | nil => rfl
  | cons p rest ih =>
    rw [List.map_cons, opsSum_cons, List.filterMap_cons]
    by_cases h : p.2 = i
    · simp [h, ih]
    · simp [h, ih]

theorem rrfScore_opsSum (rankings : List (List Nat)) (k : ℚ) (i : Nat) :
    rrfScore rankings k i = opsSum (aggOps k rankings) i := by
  induction rankings with
  | nil => rfl
  | cons r rs ih =>
    unfold rrfScore aggOps
    rw [List.map_cons, List.sum_cons, List.flatMap_cons, opsSum_append,
      opsSum_mapBlock]
    unfold rrfScore aggOps at ih
    rw [ih]

/-- The keys the aggregation dictionary ends up with are the candidate
indices of the rankings. -/
theorem aggOps_keys (k : ℚ) (rankings : List (List Nat)) :
    (aggOps k rankings).map Prod.fst = rankings.flatMap (fun r => r) := by
  unfold aggOps
  rw [List.map_flatMap]
  congr 1
  funext r
  rw [List.map_map]
  have : (Prod.fst ∘ fun p : Nat × Nat => (p.2, 1 / (k + (p.1 : ℚ)))) = Prod.snd := by
    funext p; rfl
  rw [this, List.enumFrom_map_snd]

/-- The RRF aggregation is a keyed map of the fused scores over a
duplicate-free key list covering exactly the ranked indices. -/
theorem agg_char (k : ℚ) (rankings : List (List Nat)) :
    ∃ K : List Nat, K.Nodup ∧
      (∀ i, i ∈ K ↔ i ∈ rankings.flatMap (fun r => r)) ∧
      rankings.foldl (aggRanking k) [] =
        K.map (fun i => (i, rrfScore rankings k i)) := by
  obtain ⟨K2, h1, h2, h3⟩ := aggFold_spec (aggOps k rankings) [] (fun _ => 0)
    List.nodup_nil
  refine ⟨K2, h1, ?_, ?_⟩
  · intro i
    rw [h2 i, aggOps_keys]
    simp
  · rw [foldl_aggOps]
    simp only [List.map_nil] at h3
    rw [h3]
    refine List.map_congr_left ?_
    intro i _
    rw [rrfScore_opsSum]
    simp

/-- C6 counterexample to the claim as stated: for the rankings
`A = [0,1]` and `B = [1,0]` over the same two candidates with the default
`k = 60`, fusing `[A,B]` yields `[0,1]` but fusing `[B,A]` yields
`[1,0]`: both candidates tie on fused score, and Python's stable sort
then keeps dict insertion order, which depends on which ranking was
processed first. -/
theorem C6_rrf_counterexample :
    rrf_fuse [[0, 1], [1, 0]] 60 20 = [0, 1] ∧
    rrf_fuse [[1, 0], [0, 1]] 60 20 = [1, 0] ∧
    ([0, 1] : List Nat) ≠ [1, 0] := by
  refine ⟨?_, ?_, by decide⟩
  · simp [rrf_fuse, aggRanking, aggAdd, sortDesc, insertDesc, List.enumFrom]
    norm_num
  · simp [rrf_fuse, aggRanking, aggAdd, sortDesc, insertDesc, List.enumFrom]
    norm_num

/-- C6 (amended): reciprocal-rank fusion of `[A,B]` and of `[B,A]`
assigns every candidate the same fused score, and whenever no two
distinct ranked candidates tie on fused score the fused order is also
identical; with ties, the order follows dict insertion order and may
depend on which ranking is passed first. -/
theorem rrf_fuse_order_independence (A B : List Nat) (k : ℚ) (topK : Nat) :
    (∀ i, rrfScore [A, B] k i = rrfScore [B, A] k i) ∧
    ((∀ i j, i ∈ A ++ B → j ∈ A ++ B → i ≠ j →
        rrfScore [A, B] k i ≠ rrfScore [A, B] k j) →
      rrf_fuse [A, B] k topK = rrf_fuse [B, A] k topK) := by
  have hscore : ∀ i, rrfScore [A, B] k i = rrfScore [B, A] k i := by
    intro i
    unfold rrfScore
    simp only [List.map_cons, List.map_nil, List.sum_cons, List.sum_nil]
    ring
  refine ⟨hscore, ?_⟩
  intro hdist
  obtain ⟨K1, hn1, hm1, he1⟩ := agg_char k [A, B]
  obtain ⟨K2, hn2, hm2, he2⟩ := agg_char k [B, A]
  have hmemAB : ∀ i, i ∈ K1 ↔ (i ∈ A ∨ i ∈ B) := by
    intro i
    rw [hm1 i]
    simp
  have hmemBA : ∀ i, i ∈ K2 ↔ (i ∈ A ∨ i ∈ B) := by
    intro i
    rw [hm2 i]
    simp
    tauto
  have hKperm : List.Perm K1 K2 := by
    rw [List.perm_ext_iff_of_nodup hn1 hn2]
    intro i
    rw [hmemAB i, hmemBA i]
  have he2' : [[B], [A]].flatten.foldl (aggRanking k) [] =
      K2.map (fun i => (i, rrfScore [A, B] k i)) := by
    simp only [List.flatten]
    rw [show ([B] ++ ([A] ++ []) : List (List Nat)) = [B, A] from rfl, he2]
    exact List.map_congr_left (fun i _ => by rw [hscore i])
  have hperm : List.Perm ([A, B].foldl (aggRanking k) [])
      ([B, A].foldl (aggRanking k) []) := by
    rw [he1]
    rw [show ([B, A].foldl (aggRanking k) []) =
      K2.map (fun i => (i, rrfScore [A, B] k i)) from by
        rw [he2]
        exact List.map_congr_left (fun i _ => by rw [hscore i])]
    exact List.Perm.map _ hKperm
  -- pairwise-distinct fused scores in the aggregation
  have hpw1 : List.Pairwise (fun a b : Nat × ℚ => a.2 ≠ b.2)
      ([A, B].foldl (aggRanking k) []) := by
    rw [he1, List.pairwise_map]
    refine List.Pairwise.imp_of_mem ?_ hn1
    intro a b ha hb hne
    exact hdist a b (by simpa using (hmemAB a).1 ha)
      (by simpa using (hmemAB b).1 hb) hne
  have hsymm : ∀ {x y : Nat × ℚ}, x.2 ≠ y.2 → y.2 ≠ x.2 := fun h => h.symm
  have hpw1s : List.Pairwise (fun a b : Nat × ℚ => a.2 ≠ b.2)
      (sortDesc ([A, B].foldl (aggRanking k) [])) :=
    ((sortDesc_perm _).pairwise_iff hsymm).2 hpw1
  have hpw2s : List.Pairwise (fun a b : Nat × ℚ => a.2 ≠ b.2)
      (sortDesc ([B, A].foldl (aggRanking k) [])) :=
    ((sortDesc_perm _).pairwise_iff hsymm).2 ((hperm.pairwise_iff hsymm).1 hpw1)
  have hstrict1 : List.Pairwise (fun a b : Nat × ℚ => b.2 < a.2)
      (sortDesc ([A, B].foldl (aggRanking k) [])) := by
    refine List.Pairwise.imp₂ ?_ (sortDesc_sorted _) hpw1s
    intro a b hle hne
    exact lt_of_le_of_ne hle (fun h => hne h.symm)
  have hstrict2 : List.Pairwise (fun a b : Nat × ℚ => b.2 < a.2)
      (sortDesc ([B, A].foldl (aggRanking k) [])) := by
    refine List.Pairwise.imp₂ ?_ (sortDesc_sorted _) hpw2s
    intro a b hle hne
    exact lt_of_le_of_ne hle (fun h => hne h.symm)
  have hperm' : List.Perm (sortDesc ([A, B].foldl (aggRanking k) []))
      (sortDesc ([B, A].foldl (aggRanking k) [])) :=
    (sortDesc_perm _).trans (hperm.trans (sortDesc_perm _).symm)
  haveI : IsAntisymm (Nat × ℚ) (fun a b => b.2 < a.2) :=
    ⟨fun a b h1 h2 => absurd (lt_trans h1 h2) (lt_irrefl _)⟩
  have heq := List.eq_of_perm_of_sorted hperm' hstrict1 hstrict2
  simp only [rrf_fuse]
  rw [heq]

/-- C6 witness: on rankings with no fused-score ties the fused output is
the same for both input orders. -/
theorem C6_rrf_witness :
    rrfScore [[0, 1], [1]] 60 0 = rrfScore [[1], [0, 1]] 60 0 ∧
    rrf_fuse [[0, 1], [1]] 60 20 = rrf_fuse [[1], [0, 1]] 60 20 := by
  refine ⟨(rrf_fuse_order_independence [0, 1] [1] 60 20).1 0,
    (rrf_fuse_order_independence [0, 1] [1] 60 20).2 ?_⟩
  intro i j hi hj hne
  simp only [List.cons_append, List.nil_append, List.mem_cons,
    List.not_mem_nil, or_false] at hi hj
  rcases hi with rfl | rfl | rfl <;> rcases hj with rfl | rfl | rfl <;>
    first
      | exact absurd rfl hne
      | (simp [rrfScore, List.enumFrom]; norm_num)

/-- C7 counterexample to the claim as stated: on `"hola"` no article,
disposition or annex pattern matches and no law occurs, yet the returned
piece-kind field is `"articulo"` (its initial value), not `None`.  The
number, suffix and law-id fields are `None` and no error is raised. -/
theorem C7_detect_counterexample :
    artMatch (("hola".data).map pyLower) = none ∧
    dispMatch (("hola".data).map pyLower) = none ∧
    anexoMatch (("hola".data).map pyLower) = none ∧
    findLey [] (("hola".data).map pyLower) = none ∧
    detect_reference [] ("hola".data) = ⟨some ("articulo".data), none, none, none⟩ ∧
    (detect_reference [] ("hola".data)).pieza_tipo ≠ none := by
  refine ⟨by decide, by decide, by decide, by decide, by decide, by decide⟩

/-- C7 (amended): for every non-blank input text in which no article,
disposition or annex pattern matches and no known law short code or
display name occurs, `_detect_reference` returns
`{pieza_tipo: "articulo", num: None, sufijo: None, ley_id: None}` — the
number, suffix and law-id fields are `None`, the piece kind keeps its
initial `"articulo"` placeholder, and the no-match outcome is an
ordinary return value, not an error. -/
theorem detect_reference_no_match (aliasTab : List (Str × Str)) (texto : Str)
    (h0 : stripW texto ≠ [])
    (h1 : artMatch (texto.map pyLower) = none)
    (h2 : dispMatch (texto.map pyLower) = none)
    (h3 : anexoMatch (texto.map pyLower) = none)
    (h4 : findLey aliasTab (texto.map pyLower) = none) :
    detect_reference aliasTab texto = ⟨some ("articulo".data), none, none, none⟩ := by
  unfold detect_reference
  rw [if_neg h0]
  simp only [h1, h2, h3, h4]

/-- C7 witness: the amended no-match result on a concrete text and alias
table. -/
theorem C7_detect_witness :
    detect_reference [(("zz".data), ("Ley Zeta".data))] ("hola".data) =
      ⟨some ("articulo".data), none, none, none⟩ :=
  detect_reference_no_match _ _ (by decide) (by decide) (by decide) (by decide)
    (by decide)

/-! ## Stability of the descending sort on tied scores -/

theorem insertDesc_filter_ne {α : Type} (x : α × ℚ) (L : List (α × ℚ)) (v : ℚ)
    (hx : x.2 ≠ v) :
    (insertDesc x L).filter (fun y => y.2 = v) = L.filter (fun y => y.2 = v) := by
  induction L with
  | nil => simp [insertDesc, hx]
  | cons y r ih =>
    unfold insertDesc
    by_cases h : x.2 < y.2
    · rw [if_pos h, List.filter_cons, List.filter_cons]
      cases hy : decide (y.2 = v) with
      | true => rw [ih]
      | false => exact ih
    · rw [if_neg h, List.filter_cons]
      rw [show decide (x.2 = v) = false by simpa using hx]
      simp

theorem insertDesc_filter_eq {α : Type} (x : α × ℚ) (L : List (α × ℚ)) (v : ℚ)
    (hx : x.2 = v) (hs : List.Pairwise (fun a b => b.2 ≤ a.2) L) :
    (insertDesc x L).filter (fun y => y.2 = v) =
      x :: L.filter (fun y => y.2 = v) := by
  induction L with
  | nil => simp [insertDesc, hx]
  | cons y r ih =>
    unfold insertDesc
    by_cases h : x.2 < y.2
    · rw [if_pos h, List.filter_cons]
      have hy : ¬ (y.2 = v) := by
        intro hv
        rw [hv, ← hx] at h
        exact lt_irrefl _ h
      rw [show decide (y.2 = v) = false by simpa using hy]
      rw [ih (List.pairwise_cons.1 hs).2, List.filter_cons,
        show decide (y.2 = v) = false by simpa using hy]
      simp
    · rw [if_neg h, List.filter_cons,
        show decide (x.2 = v) = true by simpa using hx]
      simp

theorem sortDesc_filter_stable {α : Type} (l : List (α × ℚ)) (v : ℚ) :
    (sortDesc l).filter (fun y => y.2 = v) = l.filter (fun y => y.2 = v) := by
  induction l with
  | nil => rfl
  | cons x r ih =>
    unfold sortDesc
    by_cases hx : x.2 = v
    · rw [insertDesc_filter_eq x (sortDesc r) v hx (sortDesc_sorted r), ih,
        List.filter_cons, show decide (x.2 = v) = true by simpa using hx]
      simp
    · rw [insertDesc_filter_ne x (sortDesc r) v hx, ih, List.filter_cons,
        show decide (x.2 = v) = false by simpa using hx]
      simp

/-- C8 (amended): `shortlist_laws` scores every law as
`0.75·cos + 0.25·overlap`, where `overlap` is the count of shared tokens
divided by the number of *query* tokens (`len(qtoks & law_tokens) /
(len(qtoks) or 1)`) — not the Jaccard similarity of the two token sets —
and returns the first `top_n` entries of the stable descending sort:
scores are non-increasing, the output size is `min top_n #laws`, and on
tied scores the original alias enumeration order is preserved. -/
theorem shortlist_laws_spec (E : ClassEnv) (query : Str) (topN : Nat) :
    (∀ x ∈ shortlist_laws E query topN, ∃ ln ∈ E.aliasTab,
        x.1 = ln.1 ∧
        x.2 = 3 / 4 * dotQ (E.emb query) (E.emb ln.2) +
          1 / 4 * ((interCount (law_tokenize query) (law_tokenize ln.2) : ℚ) /
            (max (law_tokenize query).length 1 : ℚ))) ∧
    List.Pairwise (fun a b => b.2 ≤ a.2) (shortlist_laws E query topN) ∧
    (shortlist_laws E query topN).length = min topN E.aliasTab.length ∧
    (∀ v : ℚ,
      (sortDesc (E.aliasTab.map (fun ln => (ln.1, lawScore E query ln.2)))).filter
          (fun y => y.2 = v) =
        (E.aliasTab.map (fun ln => (ln.1, lawScore E query ln.2))).filter
          (fun y => y.2 = v)) := by
  refine ⟨?_, ?_, ?_, fun v => sortDesc_filter_stable _ v⟩
  · intro x hx
    have hx2 := List.mem_of_mem_take hx
    have hx3 := (sortDesc_perm _).mem_iff.1 hx2
    obtain ⟨ln, hln, rfl⟩ := List.mem_map.1 hx3
    exact ⟨ln, hln, rfl, rfl⟩
  · exact List.Pairwise.sublist (List.take_sublist _ _) (sortDesc_sorted _)
  · unfold shortlist_laws
    rw [List.length_take, (sortDesc_perm _).length_eq, List.length_map]

/-- C8 counterexample to the claim as stated: with one law named
`"aaaa bbbb"`, a zero embedding and the query `"aaaa"`, the code's
lexical term is `|{aaaa}| / |{aaaa}| = 1` and the returned score is
`0.25`, while the Jaccard similarity of the token sets is
`1/2`, which would give `0.125`. -/
theorem C8_shortlist_counterexample :
    shortlist_laws witClassEnv ("aaaa".data) 5 = [(("l1".data), 1 / 4)] ∧
    lawScoreJaccardSpec witClassEnv ("aaaa".data) ("aaaa bbbb".data) = 1 / 8 ∧
    (1 / 4 : ℚ) ≠ 1 / 8 := by
  have ht1 : law_tokenize ("aaaa".data) = [("aaaa".data)] := by decide
  have ht2 : law_tokenize ("aaaa bbbb".data) = [("aaaa".data), ("bbbb".data)] := by
    decide
  have hic : interCount (law_tokenize ("aaaa".data))
      (law_tokenize ("aaaa bbbb".data)) = 1 := by decide
  have hscore : lawScore witClassEnv ("aaaa".data) ("aaaa bbbb".data) = 1 / 4 := by
    unfold lawScore
    rw [hic, ht1]
    show 3 / 4 * dotQ (witClassEnv.emb ("aaaa".data))
        (witClassEnv.emb ("aaaa bbbb".data)) + 1 / 4 * ((1 : ℚ) / (max 1 1 : Nat)) = 1 / 4
    norm_num [dotQ, witClassEnv]
  refine ⟨?_, ?_, by norm_num⟩
  · unfold shortlist_laws
    show (sortDesc [(("l1".data), lawScore witClassEnv ("aaaa".data)
      ("aaaa bbbb".data))]).take 5 = [(("l1".data), 1 / 4)]
    rw [hscore]
    rfl
  · have hu : (dedupL ((law_tokenize ("aaaa".data)) ++
        (law_tokenize ("aaaa bbbb".data)))).length = 2 := by decide
    simp only [lawScoreJaccardSpec]
    rw [hic, hu]
    norm_num [dotQ, witClassEnv]

/-- C8 witness: the amended score formula holds for the concrete
environment's single output entry. -/
theorem C8_shortlist_witness :
    ∃ ln ∈ witClassEnv.aliasTab,
      ((("l1".data), (1 : ℚ) / 4) : Str × ℚ).1 = ln.1 ∧
      ((("l1".data), (1 : ℚ) / 4) : Str × ℚ).2 =
        3 / 4 * dotQ (witClassEnv.emb ("aaaa".data)) (witClassEnv.emb ln.2) +
          1 / 4 * ((interCount (law_tokenize ("aaaa".data)) (law_tokenize ln.2) : ℚ) /
            (max (law_tokenize ("aaaa".data)).length 1 : ℚ)) := by
  refine (shortlist_laws_spec witClassEnv ("aaaa".data) 5).1 _ ?_
  have ht1 : law_tokenize ("aaaa".data) = [("aaaa".data)] := by decide
  have hic : interCount (law_tokenize ("aaaa".data))
      (law_tokenize ("aaaa bbbb".data)) = 1 := by decide
  have hscore : lawScore witClassEnv ("aaaa".data) ("aaaa bbbb".data) = 1 / 4 := by
    unfold lawScore
    rw [hic, ht1]
    show 3 / 4 * dotQ (witClassEnv.emb ("aaaa".data))
        (witClassEnv.emb ("aaaa bbbb".data)) + 1 / 4 * ((1 : ℚ) / (max 1 1 : Nat)) = 1 / 4
    norm_num [dotQ, witClassEnv]
  unfold shortlist_laws
  show ((("l1".data), (1 : ℚ) / 4) : Str × ℚ) ∈
    (sortDesc [(("l1".data), lawScore witClassEnv ("aaaa".data)
      ("aaaa bbbb".data))]).take 5
  rw [hscore]
  exact List.mem_singleton.2 rfl

/-- C9: the cascade's confidence floors are `0.84, 0.82, 0.72, 0.62,
0.55` in strategy order, each strategy reports `max(floor, rerank_score)`
(`stratConf`), and for a fixed rerank score the reported confidence is
monotonically non-increasing across successive strategies: an earlier
strategy never reports lower confidence than a later one. -/
theorem confidence_tiering_monotone (j k : Nat) (s : ℚ) (hjk : j ≤ k)
    (hk : k ≤ 4) :
    stratConf k s ≤ stratConf j s ∧
    stratConf j s = max (strategyFloor j) s ∧
    (strategyFloor 0, strategyFloor 1, strategyFloor 2, strategyFloor 3,
      strategyFloor 4) =
      (84 / 100, 82 / 100, 72 / 100, 62 / 100, 55 / 100) := by
  refine ⟨?_, rfl, rfl⟩
  have hj : j ≤ 4 := le_trans hjk hk
  have hf : strategyFloor k ≤ strategyFloor j := by
    interval_cases j <;> interval_cases k <;> norm_num [strategyFloor]
  exact max_le_max hf le_rfl

/-- C9 witness: strategy 2's reported confidence is at most strategy 1's
for a fixed rerank score of one half. -/
theorem C9_confidence_witness :
    stratConf 2 (1 / 2) ≤ stratConf 1 (1 / 2) :=
  (confidence_tiering_monotone 1 2 (1 / 2) (by norm_num) (by norm_num)).1

/-- C3: version garbage collection evaluated on a store with two laws,
one physical collection each, and both aliases pointing at them.
`gc_versions 1` groups every collection under the prefix before the
first `"__"` — here the single prefix `"articulos"` — sorts the whole
group lexicographically, keeps one, and deletes
`articulos__a__v1`, even though it is the only (hence most recent)
version for its alias base and the collection its alias currently
references: `delete_old_versions` never consults the aliases (its
`keep_alias` parameter is unused). -/
theorem gc_versions_deletes_aliased_current :
    (StoreSt.mk [("articulos__a__v1".data), ("articulos__b__v1".data)]
        [(("articulos__a".data), ("articulos__a__v1".data)),
         (("articulos__b".data), ("articulos__b__v1".data))]).aliases.lookup
        ("articulos__a".data) = some ("articulos__a__v1".data) ∧
    (StoreSt.mk [("articulos__a__v1".data), ("articulos__b__v1".data)]
        [(("articulos__a".data), ("articulos__a__v1".data)),
         (("articulos__b".data), ("articulos__b__v1".data))]).collections.filter
        (fun c => startsWithS c ("articulos__a__".data)) =
      [("articulos__a__v1".data)] ∧
    ("articulos__a__v1".data) ∉
      (gc_versions (StoreSt.mk
        [("articulos__a__v1".data), ("articulos__b__v1".data)]
        [(("articulos__a".data), ("articulos__a__v1".data)),
         (("articulos__b".data), ("articulos__b__v1".data))]) 1).collections := by
  refine ⟨by decide, by decide, by decide⟩

/-- C4: an ingestion run over one changed law whose article loader
returns no documents.  `_ingest_ley` reports failure (`false`), its
result is discarded, and the saved manifest still replaces the law's
entry with the new file-hash snapshot, so the next run's change
detection sees nothing to do and the law is never retried. -/
theorem ingest_all_overwrites_failed_law :
    (changedLeyes
        (IngestEnv.mk [(("a".data), ("Ley A".data))] (fun _ => true)
          (fun _ => [(("f.txt".data), ("h2".data))]) false [] (fun _ => 0))
        (Manifest.mk [(("a".data), [(("f.txt".data), ("h1".data))])] []) false =
      [("a".data)]) ∧
    (ingest_ley
        (IngestEnv.mk [(("a".data), ("Ley A".data))] (fun _ => true)
          (fun _ => [(("f.txt".data), ("h2".data))]) false [] (fun _ => 0))
        ("a".data) = false) ∧
    ((ingest_all
        (IngestEnv.mk [(("a".data), ("Ley A".data))] (fun _ => true)
          (fun _ => [(("f.txt".data), ("h2".data))]) false [] (fun _ => 0))
        (Manifest.mk [(("a".data), [(("f.txt".data), ("h1".data))])] [])
        false).1.articulos.lookup ("a".data) =
      some [(("f.txt".data), ("h2".data))]) ∧
    (some [(("f.txt".data), ("h2".data))] ≠
      some [(("f.txt".data), ("h1".data))]) ∧
    (changedLeyes
        (IngestEnv.mk [(("a".data), ("Ley A".data))] (fun _ => true)
          (fun _ => [(("f.txt".data), ("h2".data))]) false [] (fun _ => 0))
        (ingest_all
          (IngestEnv.mk [(("a".data), ("Ley A".data))] (fun _ => true)
            (fun _ => [(("f.txt".data), ("h2".data))]) false [] (fun _ => 0))
          (Manifest.mk [(("a".data), [(("f.txt".data), ("h1".data))])] [])
          false).1 false = []) := by
  refine ⟨by decide, by decide, by decide, by decide, by decide⟩

/-- An empty candidate list makes a strategy fall through (`none`). -/
theorem runStrategy_nil (E : SolveEnv) (cfg : SolverCfg)
    (enunciado opcion mode : Str) (expectedPick : Option Str) (k : Nat)
    (tipo : Str) (f g : Payload → Option Str) :
    runStrategy E cfg enunciado opcion mode [] expectedPick k tipo f g = none := by
  simp [runStrategy]

/-- Candidates but no extracted quote under strict mode raise the
citation-not-found error. -/
theorem runStrategy_strict_err (E : SolveEnv) (cfg : SolverCfg)
    (enunciado opcion mode : Str) (hits : List Hit) (expectedPick : Option Str)
    (k : Nat) (tipo : Str) (f g : Payload → Option Str)
    (hstrict : cfg.strict = true) (hne : hits ≠ [])
    (hq : (pick_and_quote E cfg enunciado opcion hits expectedPick mode).quote = []) :
    runStrategy E cfg enunciado opcion mode hits expectedPick k tipo f g =
      some (.error ("cita_no_encontrada".data)) := by
  unfold runStrategy
  rw [if_neg hne]
  simp only [hq, ne_eq, not_true_eq_false, if_false, hstrict, if_true]

/-- C2: with strict-citation mode on, (i) a cascade strategy that
retrieves a non-empty candidate list from which `_pick_and_quote`
extracts no quote makes the cascade fail immediately with the
`cita_no_encontrada` error, (ii) a strategy that retrieves no candidates
at all falls through to the next strategy, and (iii) end-to-end: when
neither reference detector yields a numbered piece and the law-text
shortlist search returns candidates but no quote verifies,
`solve_question` returns `ValueError("cita_no_encontrada")` instead of
reaching strategies 3-4 or the ungrounded fallback. -/
theorem strict_citation_immediate_failure
    (E : SolveEnv) (cfg : SolverCfg) (enunciado opcion mode : Str)
    (hits : List Hit) (expectedPick : Option Str) (k : Nat) (tipo : Str)
    (f g : Payload → Option Str) (hstrict : cfg.strict = true) :
    (hits ≠ [] →
      (pick_and_quote E cfg enunciado opcion hits expectedPick mode).quote = [] →
      runStrategy E cfg enunciado opcion mode hits expectedPick k tipo f g =
        some (.error ("cita_no_encontrada".data))) ∧
    (runStrategy E cfg enunciado opcion mode [] expectedPick k tipo f g = none) ∧
    ((detect_reference E.aliasTab opcion).num = none →
     (detect_reference E.aliasTab enunciado).num = none →
     ∀ hits2,
       hits2 = ((E.searchTxtInLaws enunciado
           (adjustShortlist
             (pyOrS (detect_reference E.aliasTab opcion).ley_id
               (detect_reference E.aliasTab enunciado).ley_id)
             ((shortlist_laws ⟨E.aliasTab, E.emb⟩ enunciado 5).map Prod.fst)) 8).take 12) →
       hits2 ≠ [] →
       (pick_and_quote E cfg enunciado opcion hits2
           (pyOrS (detect_reference E.aliasTab opcion).ley_id
             (detect_reference E.aliasTab enunciado).ley_id) mode).quote = [] →
       solve_question E cfg enunciado opcion mode =
         .error ("cita_no_encontrada".data)) := by
  refine ⟨fun hne hq => runStrategy_strict_err E cfg enunciado opcion mode hits
      expectedPick k tipo f g hstrict hne hq,
    runStrategy_nil E cfg enunciado opcion mode expectedPick k tipo f g, ?_⟩
  intro h0 h1 hits2 hh2 hne2 hq2
  unfold solve_question
  simp only [h0, h1, ne_eq, not_true_eq_false, false_and, and_false, if_false]
  rw [← hh2, runStrategy_strict_err E cfg enunciado opcion mode hits2 _ 2 _ _ _
    hstrict hne2 hq2]

/-- C2 witness: in the concrete environment `witEnv`, under the fully
strict configuration, the shortlist strategy's non-empty candidate list
(whose only candidate the law guard rejects, so no quote is extracted)
raises `cita_no_encontrada`, while an empty candidate list falls
through. -/
theorem C2_strict_witness :
    runStrategy witEnv ⟨true, true, true, 60, 90, 800⟩ ("hola".data)
        ("sobre zz".data) ("correcta".data) [⟨1 / 2, witPayload⟩]
        (some ("zz".data)) 2 ("txt".data) (fun p => p.ley_nombre)
        (fun p => p.ley_id) = some (.error ("cita_no_encontrada".data)) ∧
    runStrategy witEnv ⟨true, true, true, 60, 90, 800⟩ ("hola".data)
        ("sobre zz".data) ("correcta".data) [] (some ("zz".data)) 2
        ("txt".data) (fun p => p.ley_nombre) (fun p => p.ley_id) = none := by
  have h := strict_citation_immediate_failure witEnv ⟨true, true, true, 60, 90, 800⟩
    ("hola".data) ("sobre zz".data) ("correcta".data) [⟨1 / 2, witPayload⟩]
    (some ("zz".data)) 2 ("txt".data) (fun p => p.ley_nombre)
    (fun p => p.ley_id) rfl
  exact ⟨h.1 (by simp) rfl, h.2.1⟩

/-- C5: the permissive retry never runs under the relaxed settings.  In
the concrete scenario (`witEnv`, strict import-time environment
`witEnvStrict`, an incorrect-option question whose only candidate the
law guard rejects), `_solve_with_fallback` retries once but both
attempts run under the import-time configuration (strict, guard on,
min lengths 60/90), so it gives up with no justification and no info;
yet re-reading the constants from the mutated environment yields the
relaxed configuration (strict off, guard off, min lengths 30/45), and
`solve_question` under that relaxed configuration does produce a cited
answer for the same input.  The retry therefore is not evaluated under
the relaxed settings the spec requires. -/
theorem solve_with_fallback_ignores_relaxed_settings :
    ((solve_with_fallback witEnv witEnvStrict ("hola".data) ("sobre zz".data)
        ("incorrecta".data)).just = [] ∧
     (solve_with_fallback witEnv witEnvStrict ("hola".data) ("sobre zz".data)
        ("incorrecta".data)).info = none ∧
     (solve_with_fallback witEnv witEnvStrict ("hola".data) ("sobre zz".data)
        ("incorrecta".data)).usoFallback = false) ∧
    (solverImportCfg witEnvStrict =
      ⟨true, true, true, 60, 90, 800⟩) ∧
    (specRelaxedCfg witEnvStrict =
      ⟨false, false, true, 30, 45, 800⟩) ∧
    ((solve_question witEnv (specRelaxedCfg witEnvStrict) ("hola".data)
        ("sobre zz".data) ("incorrecta".data)).toOption.map
      (fun ji => ji.2.tiene_cita) = some true) := by
  exact ⟨⟨rfl, rfl, rfl⟩, by decide, by decide, rfl⟩
